import Mathlib

/-!
Verification of the Kizuna teaching database engine core against its
natural-language specification.  The definitions below are shallow
embeddings of the C++ source: byte strings become `List Nat`, machine
integers become `Nat`/`Int`, fallible code returns `Except`, and the
mutable page graph of the B+ tree is represented by its node structure
(leaf pages in `next_leaf` order are exactly the in-order leaves of the
tree, which is the invariant the source maintains for its leaf chain).
-/

namespace Kizuna

/-! ## Byte-string keys and `BPlusTree::CompareKeys`
(src/src/storage/index/index_manager.cpp, `CompareKeys`) -/

/-- A serialized index key: a byte string. -/
abbrev Key := List Nat

/-- Embedding of `BPlusTree::CompareKeys`: `memcmp` over the common prefix,
then the shorter key sorts first.  Expressed recursively: the first
differing byte decides, a strict prefix sorts before its extension. -/
def compareKeys : Key → Key → Ordering
  | [], [] => .eq
  | [], _ :: _ => .lt
  | _ :: _, [] => .gt
  | a :: as, b :: bs =>
    if a < b then .lt
    else if b < a then .gt
    else compareKeys as bs

/-- Non-strict key order: `CompareKeys lhs rhs <= 0` in the source. -/
def keyLe (a b : Key) : Prop := compareKeys a b ≠ .gt

/-- Strict key order: `CompareKeys lhs rhs < 0` in the source. -/
def keyLt (a b : Key) : Prop := compareKeys a b = .lt

instance (a b : Key) : Decidable (keyLe a b) := by unfold keyLe; infer_instance

instance (a b : Key) : Decidable (keyLt a b) := by unfold keyLt; infer_instance

theorem compareKeys_refl (k : Key) : compareKeys k k = .eq := by
  induction k with
  | nil => rfl
  | cons a as ih => simp [compareKeys, ih]

theorem compareKeys_eq_iff {a b : Key} : compareKeys a b = .eq ↔ a = b := by
  induction a generalizing b with
  | nil => cases b <;> simp [compareKeys]
  | cons x xs ih =>
    cases b with
    | nil => simp [compareKeys]
    | cons y ys =>
      by_cases hxy : x < y
      · simp [compareKeys, hxy]
        omega
      · by_cases hyx : y < x
        · simp [compareKeys, hxy, hyx]
          omega
        · have hxyeq : x = y := by omega
          simp [compareKeys, hxy, hyx, hxyeq, ih]

theorem compareKeys_lt_iff_gt {a b : Key} :
    compareKeys a b = .lt ↔ compareKeys b a = .gt := by
  induction a generalizing b with
  | nil => cases b <;> simp [compareKeys]
  | cons x xs ih =>
    cases b with
    | nil => simp [compareKeys]
    | cons y ys =>
      by_cases hxy : x < y
      · have hyx : ¬ y < x := by omega
        simp [compareKeys, hxy, hyx]
      · by_cases hyx : y < x
        · simp [compareKeys, hxy, hyx]
        · simp [compareKeys, hxy, hyx, ih]

theorem compareKeys_trans_lt {a b c : Key}
    (hab : compareKeys a b = .lt) (hbc : compareKeys b c = .lt) :
    compareKeys a c = .lt := by
  induction a generalizing b c with
  | nil =>
    cases b with
    | nil => simp [compareKeys] at hab
    | cons y ys => cases c with
      | nil => simp [compareKeys] at hbc
      | cons z zs => simp [compareKeys]
  | cons x xs ih =>
    cases b with
    | nil => simp [compareKeys] at hab
    | cons y ys =>
      cases c with
      | nil => simp [compareKeys] at hbc
      | cons z zs =>
        by_cases hxy : x < y <;> by_cases hyz : y < z
        · have hxz : x < z := by omega
          simp [compareKeys, hxz]
        · by_cases hzy : z < y
          · simp [compareKeys, hyz, hzy] at hbc
          · have hyzeq : y = z := by omega
            subst hyzeq
            simp [compareKeys, hxy]
        · by_cases hyx : y < x
          · simp [compareKeys, hxy, hyx] at hab
          · have hxyeq : x = y := by omega
            subst hxyeq
            simp [compareKeys, hyz]
        · by_cases hyx : y < x
          · simp [compareKeys, hxy, hyx] at hab
          · by_cases hzy : z < y
            · simp [compareKeys, hyz, hzy] at hbc
            · have hxyeq : x = y := by omega
              have hyzeq : y = z := by omega
              subst hxyeq; subst hyzeq
              simp only [compareKeys, if_neg hxy, if_neg hyx] at hab hbc ⊢
              exact ih hab hbc

theorem keyLe_refl (k : Key) : keyLe k k := by
  simp [keyLe, compareKeys_refl]

theorem keyLt_of_lt_of_le {a b c : Key} (hab : keyLt a b) (hbc : keyLe b c) :
    keyLt a c := by
  unfold keyLt keyLe at *
  rcases h : compareKeys b c with hc | hc | hc
  · exact compareKeys_trans_lt hab h
  · have : b = c := compareKeys_eq_iff.mp h
    subst this; exact hab
  · exact absurd h hbc

theorem keyLt_of_le_of_lt {a b c : Key} (hab : keyLe a b) (hbc : keyLt b c) :
    keyLt a c := by
  unfold keyLt keyLe at *
  rcases h : compareKeys a b with hc | hc | hc
  · exact compareKeys_trans_lt h hbc
  · have : a = b := compareKeys_eq_iff.mp h
    subst this; exact hbc
  · exact absurd h hab

theorem keyLe_of_lt {a b : Key} (h : keyLt a b) : keyLe a b := by
  unfold keyLt at h; unfold keyLe; simp [h]

theorem keyLe_trans {a b c : Key} (hab : keyLe a b) (hbc : keyLe b c) :
    keyLe a c := by
  rcases h : compareKeys a b with hc | hc | hc
  · exact keyLe_of_lt (keyLt_of_lt_of_le h hbc)
  · have : a = b := compareKeys_eq_iff.mp h
    subst this; exact hbc
  · exact absurd h hab

theorem keyLt_irrefl (a : Key) : ¬ keyLt a a := by
  simp [keyLt, compareKeys_refl]

theorem not_keyLe_iff {a b : Key} : ¬ keyLe a b ↔ keyLt b a := by
  constructor
  · intro h
    have hg : compareKeys a b = .gt := by
      unfold keyLe at h
      by_contra hne
      exact h hne
    exact compareKeys_lt_iff_gt.mpr hg
  · intro h
    unfold keyLe
    simp [compareKeys_lt_iff_gt.mp h]

/-! ## The spec-side key order.
The specification describes the order in its own words: "Keys are compared
as byte strings, length-aware (shorter key sorts before longer with equal
prefix)."  `specKeyLt` renders those words directly; the bridge lemma
relates it to the implementation order `compareKeys`. -/

/-- Spec wording: `a` sorts strictly before `b` iff `a` is a strict prefix
of `b`, or at the first position where they differ the byte of `a` is
smaller. -/
def specKeyLt (a b : Key) : Prop :=
  (a <+: b ∧ a ≠ b) ∨
  (∃ p x y s t, x < y ∧ a = p ++ x :: s ∧ b = p ++ y :: t)

/-- Spec wording, non-strict version. -/
def specKeyLe (a b : Key) : Prop := specKeyLt a b ∨ a = b

theorem specKeyLt_iff_compareKeys {a b : Key} :
    specKeyLt a b ↔ compareKeys a b = .lt := by
  induction a generalizing b with
  | nil =>
    cases b with
    | nil =>
      simp [specKeyLt, compareKeys]
    | cons y ys =>
      constructor
      · intro _; rfl
      · intro _
        exact Or.inl ⟨⟨y :: ys, rfl⟩, by simp⟩
  | cons x xs ih =>
    cases b with
    | nil =>
      simp only [compareKeys, specKeyLt]
      constructor
      · rintro (⟨hpre, _⟩ | ⟨p, u, v, s, t, _, ha, hb⟩)
        · exact absurd (List.prefix_nil.mp hpre) (by simp)
        · cases p <;> simp at hb
      · intro h; cases h
    | cons y ys =>
      by_cases hxy : x < y
      · constructor
        · intro _
          simp [compareKeys, hxy]
        · intro _
          exact Or.inr ⟨[], x, y, xs, ys, hxy, rfl, rfl⟩
      · by_cases hyx : y < x
        · simp only [compareKeys, hxy, if_neg (by omega : ¬ x < y), hyx, if_pos]
          constructor
          · rintro (⟨hpre, _⟩ | ⟨p, u, v, s, t, huv, ha, hb⟩)
            · rcases hpre with ⟨r, hr⟩
              simp at hr
              omega
            · cases p with
              | nil =>
                simp at ha hb
                omega
              | cons q qs =>
                simp at ha hb
                omega
          · intro h; cases h
        · have hxyeq : x = y := by omega
          subst hxyeq
          simp only [compareKeys, if_neg (by omega : ¬ x < x)]
          rw [← ih]
          constructor
          · rintro (⟨hpre, hne⟩ | ⟨p, u, v, s, t, huv, ha, hb⟩)
            · rcases hpre with ⟨r, hr⟩
              simp at hr
              refine Or.inl ⟨⟨r, hr⟩, ?_⟩
              intro heq
              exact hne (by rw [heq])
            · cases p with
              | nil =>
                simp at ha hb
                omega
              | cons q qs =>
                simp at ha hb
                exact Or.inr ⟨qs, u, v, s, t, huv, ha.2, hb.2⟩
          · rintro (⟨hpre, hne⟩ | ⟨p, u, v, s, t, huv, ha, hb⟩)
            · rcases hpre with ⟨r, hr⟩
              exact Or.inl ⟨⟨r, by simp [← hr]⟩, by simp [hne]⟩
            · exact Or.inr ⟨x :: p, u, v, s, t, huv, by simp [ha], by simp [hb]⟩

theorem specKeyLe_iff_keyLe {a b : Key} : specKeyLe a b ↔ keyLe a b := by
  unfold specKeyLe keyLe
  rw [specKeyLt_iff_compareKeys]
  rcases h : compareKeys a b with hc | hc | hc
  · simp
  · simp [compareKeys_eq_iff.mp h]
  · constructor
    · rintro (h1 | rfl)
      · cases h1
      · simp [compareKeys_refl] at h
    · intro h1; exact absurd rfl h1

instance (a b : Key) : Decidable (specKeyLt a b) :=
  decidable_of_iff _ specKeyLt_iff_compareKeys.symm

instance (a b : Key) : Decidable (specKeyLe a b) :=
  decidable_of_iff _ specKeyLe_iff_keyLe.symm

/-! ## Error codes (`common/exception.h` StatusCode values used below). -/

/-- The `StatusCode` values raised by the code paths modelled in this file. -/
inductive DbError where
  | duplicateKey
  | invalidArgument
  | invalidRecordFormat
  | invalidPageType
  | recordTooLarge
  | tableExists
  | tableNotFound
  | columnNotFound
  | duplicateColumn
  | invalidConstraint
  | typeError
  | ioError
  | internalError
deriving DecidableEq

/-! ## B+ tree model
(src/src/storage/index/index_manager.cpp).

A node is either a leaf holding `(key, record_id)` entries or an internal
node holding a first child plus `(separator, child)` pairs — the source
stores `children` (size `key_count+1`) and `internal_entries` with
`entries[i].child == children[i+1]`, which is exactly `first :: entries`.
The source links leaf pages through `next_leaf` in ascending key order (a
documented invariant), so the leaf chain of a tree is its in-order list of
leaves and is modelled as such. -/

/-- `BPlusTreeNode::LeafEntry`: serialized key bytes plus a record id. -/
structure LeafEntryM where
  key : Key
  value : Nat
deriving DecidableEq

/-- A B+ tree node (`BPlusTreeNode`), with page indirection resolved. -/
inductive BTNode : Type where
  | leaf (entries : List LeafEntryM)
  | internal (first : BTNode) (entries : List (Key × BTNode))

/-- `BPlusTree::FindLeafIndex`: index of the first leaf entry whose key is
not below the probe key. -/
def findLeafIndex (key : Key) : List LeafEntryM → Nat
  | [] => 0
  | e :: es => if compareKeys e.key key = .lt then findLeafIndex key es + 1 else 0

/-- The leaf pages of a tree in `next_leaf` order (in-order traversal).
The chain-style recursion visits the first child, then treats the
remaining `(separator, child)` pairs as the rest of the multiway node. -/
def leavesOf : BTNode → List (List LeafEntryM)
  | .leaf es => [es]
  | .internal c [] => leavesOf c
  | .internal c ((_, c') :: rest) => leavesOf c ++ leavesOf (.internal c' rest)

/-- All entries of the tree in key order: the (key, record id) multiset
`K` of the specification, listed leaf by leaf. -/
def flat (t : BTNode) : List LeafEntryM := (leavesOf t).flatten

/-- `BPlusTree::FindLeafPosition` combined with the leaf chain: returns
the list of leaves from the landing leaf onward (the portion of the
`next_leaf` chain a scan will visit) and the landing index inside its
head, found by descending with `FindInternalChild` (go to the first child
whose separator compares greater than the key). -/
def findLeafSuffix (key : Key) : BTNode → List (List LeafEntryM) × Nat
  | .leaf es => ([es], findLeafIndex key es)
  | .internal c [] => findLeafSuffix key c
  | .internal c ((sep, c') :: rest) =>
    if compareKeys sep key = .gt then
      ((findLeafSuffix key c).1 ++ leavesOf (.internal c' rest), (findLeafSuffix key c).2)
    else findLeafSuffix key (.internal c' rest)

/-- The lower-bound test of the `ScanRange` loop:
`cmp < 0 || (cmp == 0 && !lower_inclusive)` causes a `continue`. -/
def belowLower (lower : Option Key) (inclusive : Bool) (k : Key) : Bool :=
  match lower with
  | none => false
  | some l =>
    match compareKeys k l with
    | .lt => true
    | .eq => !inclusive
    | .gt => false

/-- The upper-bound test of the `ScanRange` loop:
`cmp > 0 || (cmp == 0 && !upper_inclusive)` causes an early `return`. -/
def aboveUpper (upper : Option Key) (inclusive : Bool) (k : Key) : Bool :=
  match upper with
  | none => false
  | some u =>
    match compareKeys k u with
    | .gt => true
    | .eq => !inclusive
    | .lt => false

/-- The body of the `ScanRange` per-entry loop over one leaf, starting at
`start_index`: skip entries below the lower bound, stop (returning the
results so far, flag `true`) at the first entry above the upper bound,
collect the rest. -/
def scanEntriesLoop (lower : Option Key) (li : Bool) (upper : Option Key) (ui : Bool) :
    List LeafEntryM → List Nat × Bool
  | [] => ([], false)
  | e :: es =>
    if belowLower lower li e.key then scanEntriesLoop lower li upper ui es
    else if aboveUpper upper ui e.key then ([], true)
    else
      ((scanEntriesLoop lower li upper ui es).1.cons e.value,
       (scanEntriesLoop lower li upper ui es).2)

/-- The outer `ScanRange` loop walking the leaf chain: an empty leaf or a
start index past the end moves to the next leaf; an early return inside a
leaf ends the whole scan. -/
def scanLeaves (lower : Option Key) (li : Bool) (upper : Option Key) (ui : Bool) :
    List (List LeafEntryM) → Nat → List Nat
  | [], _ => []
  | es :: rest, start =>
    if es.length ≤ start then scanLeaves lower li upper ui rest 0
    else
      if (scanEntriesLoop lower li upper ui (es.drop start)).2 then
        (scanEntriesLoop lower li upper ui (es.drop start)).1
      else
        (scanEntriesLoop lower li upper ui (es.drop start)).1 ++
          scanLeaves lower li upper ui rest 0

/-- `BPlusTree::ScanRange`: locate the leaf containing the lower bound (or
the leftmost leaf when unbounded) and walk the chain. -/
def scanRange (t : BTNode) (lower : Option Key) (li : Bool) (upper : Option Key) (ui : Bool) :
    List Nat :=
  match lower with
  | some l => scanLeaves lower li upper ui (findLeafSuffix l t).1 (findLeafSuffix l t).2
  | none => scanLeaves lower li upper ui (leavesOf t) 0

/-- `BPlusTree::ScanEqual(key)` is `ScanRange(key, true, key, true)`. -/
def scanEqual (t : BTNode) (key : Key) : List Nat :=
  scanRange t (some key) true (some key) true

/-! ### Insert (`BPlusTree::Insert` / `InsertRecursive`). -/

/-- Modelled from the spec: `config::BTREE_MAX_KEYS` lives in
`common/config.h`, which is not among the sources here;
docs/btree_capacity_fix_plan.md records its value as 256. -/
def BTREE_MAX_KEYS : Nat := 256

/-- Result of `InsertRecursive` on one node: either the updated node, or
the updated node plus a promoted key and the freshly split right sibling
(the `out_promoted_key` / `out_new_child` output parameters). -/
inductive InsertOutcome where
  | stable (node : BTNode)
  | split (node : BTNode) (promotedKey : Key) (newNode : BTNode)

/-- Leaf insert at the sorted position followed by the
`size > BTREE_MAX_KEYS` split check (`SplitLeaf`: upper half moves to the
new node, the lower bound of the right half is promoted). -/
def insertLeafFresh (key : Key) (value : Nat) (entries : List LeafEntryM) (idx : Nat) :
    Except DbError InsertOutcome :=
  let entries' := entries.take idx ++ { key := key, value := value } :: entries.drop idx
  if entries'.length > BTREE_MAX_KEYS then
    match entries'.drop (entries'.length / 2) with
    | r :: _ =>
      .ok (.split (.leaf (entries'.take (entries'.length / 2))) r.key
        (.leaf (entries'.drop (entries'.length / 2))))
    | [] => .ok (.stable (.leaf entries'))
  else .ok (.stable (.leaf entries'))

mutual

/-- `BPlusTree::InsertRecursive`.  In a leaf: an equal existing key fails
with `DUPLICATE_KEY` when the tree is unique and otherwise overwrites the
stored value in place; a fresh key is inserted at the sorted position and
the node splits on overflow.  In an internal node: descend into the child
selected by `FindInternalChild`, then splice in a promoted entry and split
on overflow (`SplitInternal` promotes the pivot key). -/
def insertRecursive (unique : Bool) (key : Key) (value : Nat) :
    BTNode → Except DbError InsertOutcome
  | .leaf entries =>
    match entries.drop (findLeafIndex key entries) with
    | e :: tl =>
      if compareKeys e.key key = .eq then
        if unique then .error .duplicateKey
        else
          .ok (.stable (.leaf (entries.take (findLeafIndex key entries) ++
            { key := e.key, value := value } :: tl)))
      else insertLeafFresh key value entries (findLeafIndex key entries)
    | [] => insertLeafFresh key value entries (findLeafIndex key entries)
  | .internal c entries => do
    let r ← insertChain unique key value c entries
    let entries' := r.2
    if entries'.length > BTREE_MAX_KEYS then
      match entries'.drop (entries'.length / 2) with
      | p :: rts =>
        pure (.split (.internal r.1 (entries'.take (entries'.length / 2))) p.1
          (.internal p.2 rts))
      | [] => pure (.stable (.internal r.1 entries'))
    else pure (.stable (.internal r.1 entries'))
termination_by t => sizeOf t

/-- Walk the `(separator, child)` pairs exactly as `FindInternalChild`
does (skip separators that do not compare greater than the key), recurse
into the selected child, and splice a split result into the entry list at
the child position. -/
def insertChain (unique : Bool) (key : Key) (value : Nat) :
    BTNode → List (Key × BTNode) → Except DbError (BTNode × List (Key × BTNode))
  | c, [] => do
    match ← insertRecursive unique key value c with
    | .stable c' => pure (c', [])
    | .split c' pk nc => pure (c', [(pk, nc)])
  | c, (sep, c1) :: rest =>
    if compareKeys sep key = .gt then do
      match ← insertRecursive unique key value c with
      | .stable c' => pure (c', (sep, c1) :: rest)
      | .split c' pk nc => pure (c', (pk, nc) :: (sep, c1) :: rest)
    else do
      let r ← insertChain unique key value c1 rest
      pure (c, (sep, r.1) :: r.2)
termination_by c entries => sizeOf c + sizeOf entries

end

/-- A `BPlusTree` handle: the root node and the uniqueness flag. -/
structure BPlusTreeM where
  root : BTNode
  unique : Bool

/-- A freshly created tree: the constructor allocates a single empty leaf
root when given `INVALID_PAGE_ID`. -/
def BPlusTreeM.empty (unique : Bool) : BPlusTreeM := ⟨.leaf [], unique⟩

/-- `BPlusTree::Insert`: run the recursive insert from the root and, if a
key was promoted out of it, allocate a new internal root with the old root
and the new child. -/
def BPlusTreeM.insert (t : BPlusTreeM) (key : Key) (value : Nat) :
    Except DbError BPlusTreeM := do
  match ← insertRecursive t.unique key value t.root with
  | .stable n => pure ⟨n, t.unique⟩
  | .split n pk nn => pure ⟨.internal n [(pk, nn)], t.unique⟩

/-- `ScanEqual` on a tree handle. -/
def BPlusTreeM.scanEqual (t : BPlusTreeM) (key : Key) : List Nat :=
  Kizuna.scanEqual t.root key

/-! ### Well-formedness of a B+ tree.
The invariants the source maintains (spec §4.6): entries of a leaf sorted
by key; the separator of an internal entry bounds its left sibling
subtree strictly from above and its own subtree from below.  The
`internalCons` constructor consumes one `(separator, child)` pair at a
time, matching the chain-style recursion of the scan functions. -/

/-- `lo ≤ k` for an optional lower bound. -/
def optLowerLe (lo : Option Key) (k : Key) : Prop :=
  match lo with
  | none => True
  | some l => keyLe l k

/-- `k < hi` for an optional (strict, exclusive) upper bound. -/
def optUpperGt (hi : Option Key) (k : Key) : Prop :=
  match hi with
  | none => True
  | some h => keyLt k h

instance (lo : Option Key) (k : Key) : Decidable (optLowerLe lo k) := by
  unfold optLowerLe; cases lo <;> infer_instance

instance (hi : Option Key) (k : Key) : Decidable (optUpperGt hi k) := by
  unfold optUpperGt; cases hi <;> infer_instance

/-- Well-formed subtree with optional inclusive lower and exclusive upper
key bounds. -/
inductive WFB : Option Key → Option Key → BTNode → Prop where
  | leaf : ∀ lo hi entries,
      entries.Pairwise (fun a b => keyLe a.key b.key) →
      (∀ e ∈ entries, optLowerLe lo e.key ∧ optUpperGt hi e.key) →
      WFB lo hi (.leaf entries)
  | internalNil : ∀ lo hi c, WFB lo hi c → WFB lo hi (.internal c [])
  | internalCons : ∀ lo hi c k c' rest,
      optLowerLe lo k →
      optUpperGt hi k →
      WFB lo (some k) c →
      WFB (some k) hi (.internal c' rest) →
      WFB lo hi (.internal c ((k, c') :: rest))

theorem wfb_flat_bounds {lo hi : Option Key} {t : BTNode} (h : WFB lo hi t) :
    ∀ e ∈ flat t, optLowerLe lo e.key ∧ optUpperGt hi e.key := by
  induction h with
  | leaf lo hi entries hsort hbound =>
    intro e he
    simp only [flat, leavesOf, List.flatten, List.append_nil] at he
    exact hbound e he
  | internalNil lo hi c hc ih =>
    intro e he
    simp only [flat, leavesOf] at he ⊢
    exact ih e he
  | internalCons lo hi c k c' rest hlk huk hc hrest ihc ihrest =>
    intro e he
    simp only [flat, leavesOf, List.flatten_append, List.mem_append] at he
    rcases he with he | he
    · obtain ⟨h1, h2⟩ := ihc e he
      refine ⟨h1, ?_⟩
      cases hi with
      | none => trivial
      | some hv =>
        have h2' : keyLt e.key k := h2
        have huk' : keyLt k hv := huk
        exact keyLt_of_lt_of_le h2' (keyLe_of_lt huk')
    · obtain ⟨h1, h2⟩ := ihrest e he
      refine ⟨?_, h2⟩
      have h1' : keyLe k e.key := h1
      cases lo with
      | none => trivial
      | some lv =>
        have hlk' : keyLe lv k := hlk
        exact keyLe_trans hlk' h1'

theorem wfb_flat_sorted {lo hi : Option Key} {t : BTNode} (h : WFB lo hi t) :
    (flat t).Pairwise (fun a b => keyLe a.key b.key) := by
  induction h with
  | leaf lo hi entries hsort hbound =>
    simpa only [flat, leavesOf, List.flatten, List.append_nil] using hsort
  | internalNil lo hi c hc ih =>
    simpa only [flat, leavesOf] using ih
  | internalCons lo hi c k c' rest hlk huk hc hrest ihc ihrest =>
    have heq : flat (.internal c ((k, c') :: rest)) = flat c ++ flat (.internal c' rest) := by
      simp [flat, leavesOf]
    rw [heq, List.pairwise_append]
    refine ⟨ihc, ihrest, ?_⟩
    intro a ha b hb
    have h1 : keyLt a.key k := (wfb_flat_bounds hc a ha).2
    have h2 : keyLe k b.key := (wfb_flat_bounds hrest b hb).1
    exact keyLe_of_lt (keyLt_of_lt_of_le h1 h2)

theorem findLeafIndex_le_length (key : Key) (es : List LeafEntryM) :
    findLeafIndex key es ≤ es.length := by
  induction es with
  | nil => simp [findLeafIndex]
  | cons a as ih =>
    by_cases h : compareKeys a.key key = .lt
    · simp only [findLeafIndex, h, if_pos, List.length_cons]
      omega
    · simp [findLeafIndex, h]

theorem findLeafIndex_take_lt (key : Key) (es : List LeafEntryM) :
    ∀ e ∈ es.take (findLeafIndex key es), keyLt e.key key := by
  induction es with
  | nil => simp
  | cons a as ih =>
    by_cases h : compareKeys a.key key = .lt
    · intro e he
      simp only [findLeafIndex, h, if_pos, List.take_succ_cons, List.mem_cons] at he
      rcases he with rfl | he
      · exact h
      · exact ih e he
    · intro e he
      simp [findLeafIndex, h] at he

theorem aboveUpper_mono {upper : Option Key} {ui : Bool} {k k' : Key}
    (h : aboveUpper upper ui k = true) (hle : keyLe k k') :
    aboveUpper upper ui k' = true := by
  cases upper with
  | none => simp [aboveUpper] at h
  | some u =>
    rcases hc : compareKeys k u with h1 | h1 | h1
    · simp [aboveUpper, hc] at h
    · have hk : k = u := compareKeys_eq_iff.mp hc
      subst hk
      simp only [aboveUpper, hc] at h
      rcases hc' : compareKeys k' k with h2 | h2 | h2
      · exact absurd (compareKeys_lt_iff_gt.mp hc') hle
      · have hke : k' = k := compareKeys_eq_iff.mp hc'
        subst hke
        simpa [aboveUpper, hc'] using h
      · simp [aboveUpper, hc']
    · have h2 : keyLt u k := compareKeys_lt_iff_gt.mpr hc
      have h3 : keyLt u k' := keyLt_of_lt_of_le h2 hle
      have h4 : compareKeys k' u = .gt := compareKeys_lt_iff_gt.mp h3
      simp [aboveUpper, h4]

/-- An entry satisfies the range iff it passes both loop tests. -/
def passBound (lower : Option Key) (li : Bool) (upper : Option Key) (ui : Bool) (k : Key) : Bool :=
  !(belowLower lower li k) && !(aboveUpper upper ui k)

theorem scanEntriesLoop_fst {lower : Option Key} {li : Bool} {upper : Option Key} {ui : Bool}
    {es : List LeafEntryM} (hs : es.Pairwise (fun a b => keyLe a.key b.key)) :
    (scanEntriesLoop lower li upper ui es).1 =
      (es.filter (fun e => passBound lower li upper ui e.key)).map LeafEntryM.value := by
  induction es with
  | nil => simp [scanEntriesLoop]
  | cons e es ih =>
    have hhead := (List.pairwise_cons.mp hs).1
    have hs' := (List.pairwise_cons.mp hs).2
    by_cases hb : belowLower lower li e.key
    · simp [scanEntriesLoop, hb, List.filter_cons, passBound, ih hs']
    · by_cases ha : aboveUpper upper ui e.key
      · have hrest : es.filter (fun x => passBound lower li upper ui x.key) = [] := by
          rw [List.filter_eq_nil_iff]
          intro x hx
          have hax := aboveUpper_mono ha (hhead x hx)
          simp [passBound, hax]
        have hres : scanEntriesLoop lower li upper ui (e :: es) = ([], true) := by
          simp [scanEntriesLoop, hb, ha]
        have hpe : passBound lower li upper ui e.key = false := by simp [passBound, ha]
        rw [hres]
        simp [List.filter_cons, hpe, hrest]
      · simp [scanEntriesLoop, hb, ha, List.filter_cons, passBound, ih hs']

theorem scanEntriesLoop_stop {lower : Option Key} {li : Bool} {upper : Option Key} {ui : Bool}
    {es : List LeafEntryM} (h : (scanEntriesLoop lower li upper ui es).2 = true) :
    ∃ e ∈ es, aboveUpper upper ui e.key = true := by
  induction es with
  | nil => simp [scanEntriesLoop] at h
  | cons e es ih =>
    by_cases hb : belowLower lower li e.key
    · simp only [scanEntriesLoop, hb, if_pos] at h
      obtain ⟨x, hx, hax⟩ := ih h
      exact ⟨x, by simp [hx], hax⟩
    · by_cases ha : aboveUpper upper ui e.key
      · exact ⟨e, by simp, ha⟩
      · simp only [scanEntriesLoop, hb, ha, if_neg, Bool.false_eq_true] at h
        obtain ⟨x, hx, hax⟩ := ih h
        exact ⟨x, by simp [hx], hax⟩

/-- The entries a chain walk starting at `(leaves, start)` can still
visit: the head leaf from `start` on, then all later leaves. -/
def remEntries : List (List LeafEntryM) → Nat → List LeafEntryM
  | [], _ => []
  | es :: rest, start => es.drop start ++ rest.flatten

theorem remEntries_zero (L : List (List LeafEntryM)) : remEntries L 0 = L.flatten := by
  cases L <;> simp [remEntries]

theorem scanLeaves_eq_filter {lower : Option Key} {li : Bool} {upper : Option Key} {ui : Bool} :
    ∀ (L : List (List LeafEntryM)) (start : Nat),
    (remEntries L start).Pairwise (fun a b => keyLe a.key b.key) →
    scanLeaves lower li upper ui L start =
      ((remEntries L start).filter (fun e => passBound lower li upper ui e.key)).map
        LeafEntryM.value := by
  intro L
  induction L with
  | nil =>
    intro start h
    simp [scanLeaves, remEntries]
  | cons es rest ih =>
    intro start h
    by_cases hlen : es.length ≤ start
    · have hdrop : es.drop start = [] := by
        rw [List.drop_eq_nil_iff]
        exact hlen
      rw [remEntries, hdrop] at h ⊢
      simp only [List.nil_append] at h ⊢
      rw [← remEntries_zero] at h ⊢
      simp only [scanLeaves, hlen, if_pos]
      exact ih 0 h
    · rw [remEntries] at h
      obtain ⟨h1, h2, hcross⟩ := List.pairwise_append.mp h
      by_cases hstop : (scanEntriesLoop lower li upper ui (es.drop start)).2
      · have hrest : rest.flatten.filter (fun x => passBound lower li upper ui x.key) = [] := by
          rw [List.filter_eq_nil_iff]
          intro x hx
          obtain ⟨e, he, hae⟩ := scanEntriesLoop_stop hstop
          have hax := aboveUpper_mono hae (hcross e he x hx)
          simp [passBound, hax]
        have heq1 : scanLeaves lower li upper ui (es :: rest) start =
            (scanEntriesLoop lower li upper ui (es.drop start)).1 := by
          simp only [scanLeaves]
          rw [if_neg hlen, if_pos hstop]
        rw [heq1, scanEntriesLoop_fst h1, remEntries, List.filter_append, hrest,
          List.append_nil]
      · have heq1 : scanLeaves lower li upper ui (es :: rest) start =
            (scanEntriesLoop lower li upper ui (es.drop start)).1 ++
              scanLeaves lower li upper ui rest 0 := by
          simp only [scanLeaves]
          rw [if_neg hlen, if_neg hstop]
        rw [heq1, scanEntriesLoop_fst h1, remEntries, List.filter_append, List.map_append]
        congr 1
        rw [← remEntries_zero] at h2 ⊢
        exact ih 0 h2

theorem wfb_findLeafSuffix {lo hi : Option Key} {t : BTNode} (h : WFB lo hi t) (target : Key) :
    ∃ dropped head rl,
      (findLeafSuffix target t).1 = head :: rl ∧
      leavesOf t = dropped ++ head :: rl ∧
      (findLeafSuffix target t).2 = findLeafIndex target head ∧
      ∀ e ∈ dropped.flatten, keyLt e.key target := by
  induction h with
  | leaf lo hi entries hs hb =>
    refine ⟨[], entries, [], ?_, ?_, ?_, by simp⟩
    · simp [findLeafSuffix]
    · simp [leavesOf]
    · simp [findLeafSuffix]
  | internalNil lo hi c hc ih =>
    simpa only [findLeafSuffix, leavesOf] using ih
  | internalCons lo hi c k c' rest hlk huk hc hrest ihc ihrest =>
    by_cases hgt : compareKeys k target = .gt
    · obtain ⟨dropped, head, rl, h1, h2, h3, h4⟩ := ihc
      refine ⟨dropped, head, rl ++ leavesOf (.internal c' rest), ?_, ?_, ?_, h4⟩
      · simp [findLeafSuffix, hgt, h1]
      · simp [leavesOf, h2]
      · simp [findLeafSuffix, hgt, h3]
    · obtain ⟨dropped, head, rl, h1, h2, h3, h4⟩ := ihrest
      refine ⟨leavesOf c ++ dropped, head, rl, ?_, ?_, ?_, ?_⟩
      · simp [findLeafSuffix, hgt, h1]
      · simp [leavesOf, h2]
      · simp [findLeafSuffix, hgt, h3]
      · intro e he
        rw [List.flatten_append, List.mem_append] at he
        rcases he with he | he
        · have hk : keyLt e.key k := (wfb_flat_bounds hc e he).2
          exact keyLt_of_lt_of_le hk hgt
        · exact h4 e he

theorem scanRange_eq_filter {t : BTNode} (h : WFB none none t)
    (lower : Option Key) (li : Bool) (upper : Option Key) (ui : Bool) :
    scanRange t lower li upper ui =
      ((flat t).filter (fun e => passBound lower li upper ui e.key)).map LeafEntryM.value := by
  have hsorted := wfb_flat_sorted h
  cases lower with
  | none =>
    rw [scanRange]
    have h0 : remEntries (leavesOf t) 0 = flat t := by
      rw [remEntries_zero]; rfl
    rw [← h0] at hsorted
    rw [← h0]
    exact scanLeaves_eq_filter (leavesOf t) 0 hsorted
  | some l =>
    obtain ⟨dropped, head, rl, h1, h2, h3, h4⟩ := wfb_findLeafSuffix h l
    have hidx : findLeafIndex l head ≤ head.length := findLeafIndex_le_length l head
    have hflat : flat t =
        (dropped.flatten ++ head.take (findLeafIndex l head)) ++
          remEntries (head :: rl) (findLeafIndex l head) := by
      simp only [flat, h2, List.flatten_append, List.flatten_cons, remEntries]
      rw [List.append_assoc]
      congr 1
      rw [← List.append_assoc, List.take_append_drop]
    have hskip : ∀ e ∈ dropped.flatten ++ head.take (findLeafIndex l head), keyLt e.key l := by
      intro e he
      rcases List.mem_append.mp he with he | he
      · exact h4 e he
      · exact findLeafIndex_take_lt l head e he
    have hsorted' : (remEntries (head :: rl) (findLeafIndex l head)).Pairwise
        (fun a b => keyLe a.key b.key) := by
      rw [hflat] at hsorted
      exact (List.pairwise_append.mp hsorted).2.1
    have hfilter : (flat t).filter (fun e => passBound (some l) li upper ui e.key) =
        (remEntries (head :: rl) (findLeafIndex l head)).filter
          (fun e => passBound (some l) li upper ui e.key) := by
      rw [hflat, List.filter_append]
      have hnil : (dropped.flatten ++ head.take (findLeafIndex l head)).filter
          (fun e => passBound (some l) li upper ui e.key) = [] := by
        rw [List.filter_eq_nil_iff]
        intro x hx
        have hlt : compareKeys x.key l = .lt := hskip x hx
        simp [passBound, belowLower, hlt]
      rw [hnil, List.nil_append]
    rw [hfilter, scanRange, h1, h3]
    exact scanLeaves_eq_filter (head :: rl) (findLeafIndex l head) hsorted'

/-! ### The range predicate in the words of the specification. -/

/-- Spec reading of the lower bound: an absent bound imposes no filter,
otherwise `k ≥ lo` when inclusive and `k > lo` when not, in the
spec-described byte-string order. -/
def specLowerOK (lower : Option Key) (li : Bool) (k : Key) : Bool :=
  match lower, li with
  | none, _ => true
  | some l, true => decide (specKeyLe l k)
  | some l, false => decide (specKeyLt l k)

/-- Spec reading of the upper bound: an absent bound imposes no filter,
otherwise `k ≤ hi` when inclusive and `k < hi` when not. -/
def specUpperOK (upper : Option Key) (ui : Bool) (k : Key) : Bool :=
  match upper, ui with
  | none, _ => true
  | some u, true => decide (specKeyLe k u)
  | some u, false => decide (specKeyLt k u)

theorem not_belowLower_eq (lower : Option Key) (li : Bool) (k : Key) :
    (!(belowLower lower li k)) = specLowerOK lower li k := by
  cases lower with
  | none => cases li <;> rfl
  | some l =>
    rcases hc : compareKeys k l with h | h | h
    · have h1 : ¬ specKeyLe l k := by
        rw [specKeyLe_iff_keyLe, not_keyLe_iff]
        exact hc
      have h2 : ¬ specKeyLt l k := by
        rw [specKeyLt_iff_compareKeys]
        intro hx
        have hy := compareKeys_lt_iff_gt.mp hx
        simp [hc] at hy
      cases li <;> simp [belowLower, specLowerOK, hc, h1, h2]
    · have hkl : k = l := compareKeys_eq_iff.mp hc
      subst hkl
      have h1 : specKeyLe k k := by
        rw [specKeyLe_iff_keyLe]
        exact keyLe_refl k
      have h2 : ¬ specKeyLt k k := by
        rw [specKeyLt_iff_compareKeys, compareKeys_refl]
        simp
      cases li <;> simp [belowLower, specLowerOK, compareKeys_refl, h1, h2]
    · have hlt : keyLt l k := compareKeys_lt_iff_gt.mpr hc
      have h1 : specKeyLe l k := by
        rw [specKeyLe_iff_keyLe]
        exact keyLe_of_lt hlt
      have h2 : specKeyLt l k := by
        rw [specKeyLt_iff_compareKeys]
        exact hlt
      cases li <;> simp [belowLower, specLowerOK, hc, h1, h2]

theorem not_aboveUpper_eq (upper : Option Key) (ui : Bool) (k : Key) :
    (!(aboveUpper upper ui k)) = specUpperOK upper ui k := by
  cases upper with
  | none => cases ui <;> rfl
  | some u =>
    rcases hc : compareKeys k u with h | h | h
    · have hlt : keyLt k u := hc
      have h1 : specKeyLe k u := by
        rw [specKeyLe_iff_keyLe]
        exact keyLe_of_lt hlt
      have h2 : specKeyLt k u := by
        rw [specKeyLt_iff_compareKeys]
        exact hlt
      cases ui <;> simp [aboveUpper, specUpperOK, hc, h1, h2]
    · have hkl : k = u := compareKeys_eq_iff.mp hc
      subst hkl
      have h1 : specKeyLe k k := by
        rw [specKeyLe_iff_keyLe]
        exact keyLe_refl k
      have h2 : ¬ specKeyLt k k := by
        rw [specKeyLt_iff_compareKeys, compareKeys_refl]
        simp
      cases ui <;> simp [aboveUpper, specUpperOK, compareKeys_refl, h1, h2]
    · have h1 : ¬ specKeyLe k u := by
        rw [specKeyLe_iff_keyLe, not_keyLe_iff]
        exact compareKeys_lt_iff_gt.mpr hc
      have h2 : ¬ specKeyLt k u := by
        rw [specKeyLt_iff_compareKeys]
        intro hx
        simp [hc] at hx
      cases ui <;> simp [aboveUpper, specUpperOK, hc, h1, h2]

/-- Claim C5: for every (well-formed) B+ tree whose entry multiset is `K`
(listed by `flat`), `ScanRange(lo, li, hi, hi_i)` returns exactly the
values of the pairs `(k, v)` in `K` whose key satisfies the lower bound
(`k ≥ lo` when `li`, `k > lo` otherwise) and the upper bound (`k ≤ hi`
when `hi_i`, `k < hi` otherwise), an absent bound imposing no filter, with
keys compared as byte strings where a shorter key sorts before a longer
key sharing an equal prefix. -/
theorem C5_scanRange_bounds {t : BTNode} (h : WFB none none t)
    (lower : Option Key) (li : Bool) (upper : Option Key) (ui : Bool) :
    scanRange t lower li upper ui =
      ((flat t).filter (fun e => specLowerOK lower li e.key && specUpperOK upper ui e.key)).map
        LeafEntryM.value := by
  rw [scanRange_eq_filter h lower li upper ui]
  congr 1
  apply List.filter_congr
  intro e _
  rw [passBound, not_belowLower_eq, not_aboveUpper_eq]

/-- A small two-leaf tree used to instantiate the range-scan theorem. -/
def sampleTree : BTNode :=
  .internal (.leaf [⟨[1], 10⟩, ⟨[2], 20⟩]) [([3], .leaf [⟨[3], 30⟩, ⟨[4], 40⟩])]

theorem sampleTree_wf : WFB none none sampleTree := by
  apply WFB.internalCons
  · trivial
  · trivial
  · apply WFB.leaf <;> decide
  · apply WFB.internalNil
    apply WFB.leaf <;> decide

/-- Witness for C5: the theorem applied to a concrete two-leaf tree and a
half-open range. -/
theorem C5_scanRange_bounds_witness :
    scanRange sampleTree (some [1]) false (some [4]) false = [20, 30] := by
  rw [C5_scanRange_bounds sampleTree_wf (some [1]) false (some [4]) false]
  simp only [flat, sampleTree, leavesOf]
  decide

/-! ### Claim C2: duplicate keys in a non-unique tree. -/

theorem exceptBind_ok {ε α β : Type} (a : α) (f : α → Except ε β) :
    (Except.ok a >>= f) = f a := rfl

theorem exceptBind_error {ε α β : Type} (e : ε) (f : α → Except ε β) :
    ((Except.error e : Except ε α) >>= f) = .error e := rfl

theorem exceptPure {ε α : Type} (a : α) : (pure a : Except ε α) = .ok a := rfl

theorem exceptMap_ok {ε α β : Type} (f : α → β) (a : α) :
    (Except.ok a : Except ε α).map f = .ok (f a) := rfl

theorem exceptMap_error {ε α β : Type} (f : α → β) (e : ε) :
    (Except.error e : Except ε α).map f = .error e := rfl

/-- Run a sequence of `Insert` calls, stopping at the first error (a
statement aborts on the first error). -/
def insertAll (t : BPlusTreeM) : List (Key × Nat) → Except DbError BPlusTreeM
  | [] => .ok t
  | (k, v) :: rest => do
    let t' ← t.insert k v
    insertAll t' rest

/-- The bytes of the ASCII string "same". -/
def sameKey : Key := [115, 97, 109, 101]

/-- Claim C2 counterexample: after `Insert("same",100)` then
`Insert("same",200)` into a fresh non-unique tree, `ScanEqual("same")`
returns only `[200]` — the second insert overwrote the first entry's
value instead of adding a second entry, so the claimed result
`[100, 200]` does not occur. -/
theorem C2_counterexample :
    (insertAll (BPlusTreeM.empty false) [(sameKey, 100), (sameKey, 200)]).map
        (fun t => t.scanEqual sameKey) = .ok [200] ∧
    (insertAll (BPlusTreeM.empty false) [(sameKey, 100), (sameKey, 200)]).map
        (fun t => t.scanEqual sameKey) ≠ .ok [100, 200] := by
  have h : insertAll (BPlusTreeM.empty false) [(sameKey, 100), (sameKey, 200)] =
      .ok ⟨.leaf [⟨sameKey, 200⟩], false⟩ := by
    simp [insertAll, BPlusTreeM.empty, BPlusTreeM.insert, insertRecursive, insertLeafFresh,
      findLeafIndex, compareKeys_refl, BTREE_MAX_KEYS, exceptBind_ok, exceptBind_error,
      exceptPure]
  rw [h]
  refine ⟨?_, ?_⟩
  · simp only [exceptMap_ok, BPlusTreeM.scanEqual, scanEqual, scanRange, findLeafSuffix,
      findLeafIndex, compareKeys_refl, scanLeaves, scanEntriesLoop, belowLower, aboveUpper]
    simp [compareKeys_refl]
  · simp only [exceptMap_ok, BPlusTreeM.scanEqual, scanEqual, scanRange, findLeafSuffix,
      findLeafIndex, compareKeys_refl, scanLeaves, scanEntriesLoop, belowLower, aboveUpper]
    simp [compareKeys_refl]

/-- Claim C2 (amended): in a non-unique tree, inserting a key equal to an
existing entry's key does not fail; it overwrites that entry's stored
value in place, so after `Insert(k,v1)` then `Insert(k,v2)` on a fresh
tree, `ScanEqual(k)` returns exactly `[v2]`, the most recently written
value for the key. -/
theorem C2_nonunique_overwrite (k : Key) (v1 v2 : Nat) :
    (insertAll (BPlusTreeM.empty false) [(k, v1), (k, v2)]).map
        (fun t => t.scanEqual k) = .ok [v2] := by
  have h : insertAll (BPlusTreeM.empty false) [(k, v1), (k, v2)] =
      .ok ⟨.leaf [⟨k, v2⟩], false⟩ := by
    simp [insertAll, BPlusTreeM.empty, BPlusTreeM.insert, insertRecursive, insertLeafFresh,
      findLeafIndex, compareKeys_refl, BTREE_MAX_KEYS, exceptBind_ok, exceptBind_error,
      exceptPure]
  rw [h]
  simp only [exceptMap_ok, BPlusTreeM.scanEqual, scanEqual, scanRange, findLeafSuffix,
    findLeafIndex, compareKeys_refl, scanLeaves, scanEntriesLoop, belowLower, aboveUpper]
  simp [compareKeys_refl]

/-! ## B+ tree node page encoding (src/unnamed/part_011, `BPlusTreeNode`).
A page is modelled as its parsed view: the page header (type and id), the
node's `RawHeader` fields, and the structured body the serializer lays
out.  The size constants (`PAGE_SIZE`, `Page::kHeaderSize`,
`sizeof(RawHeader)`, `MAX_KEY_LENGTH`, `BTREE_MAX_KEYS`) live in headers
that are not among the sources, so the functions are parametric in them. -/

/-- `INVALID_PAGE_ID = 0` (spec §3). -/
def INVALID_PAGE_ID : Nat := 0

/-- `kNodeMagic = 0x4B5A4958` ('KZIX'), src/unnamed/part_010. -/
def kNodeMagic : Nat := 0x4B5A4958

/-- Page types (spec §3: `METADATA`, `DATA`, `INDEX`, `INVALID`). -/
inductive PageTypeM where
  | invalid
  | metadata
  | data
  | index
deriving DecidableEq

/-- `BPlusTreeNode::NodeType` with its on-disk tags. -/
inductive NodeTypeM where
  | internal
  | leaf
deriving DecidableEq

/-- On-disk tag of a node type (`INTERNAL = 0`, `LEAF = 1`). -/
def NodeTypeM.tag : NodeTypeM → Nat
  | .internal => 0
  | .leaf => 1

/-- The `RawHeader` written at the start of an INDEX page body. -/
structure RawHeaderM where
  magic : Nat
  nodeType : Nat
  keyCount : Nat
  parentPageId : Nat
  nextLeafPageId : Nat
  prevLeafPageId : Nat
  keyDataOffset : Int
deriving DecidableEq

/-- Structured view of the node body the serializer writes: leaf record
ids or internal child ids, the key-offset shorts, and the key bytes. -/
structure NodeBodyM where
  values : List Nat
  children : List Nat
  keyOffsets : List Int
  keys : List Key
deriving DecidableEq

/-- Parsed view of one page. -/
structure PageM where
  pageType : PageTypeM
  pageId : Nat
  header : RawHeaderM
  body : NodeBodyM
deriving DecidableEq

/-- An in-memory `BPlusTreeNode` as the serializer sees it. -/
structure BPlusTreeNodeM where
  nodeType : NodeTypeM
  pageId : Nat
  parentPageId : Nat
  nextLeafPageId : Nat
  prevLeafPageId : Nat
  leafEntries : List LeafEntryM
  internalEntries : List (Key × Nat)
  children : List Nat
deriving DecidableEq

/-- Size constants of the page layout, parameters of the model
(`common/config.h` and `storage/page.h` are not among the sources). -/
structure BTConfig where
  pageSize : Nat
  pageHeaderSize : Nat
  nodeHeaderSize : Nat
  maxKeyLength : Nat
  btreeMaxKeys : Nat
deriving DecidableEq

/-- The leaf-branch loop of `Serialize`: reject any key longer than
`MAX_KEY_LENGTH` with `INVALID_ARGUMENT`, otherwise collect the key bytes
and the record-id values in order. -/
def collectLeafKeys (maxLen : Nat) : List LeafEntryM → Except DbError (List Key × List Nat)
  | [] => .ok ([], [])
  | e :: es =>
    if e.key.length > maxLen then .error .invalidArgument
    else do
      let r ← collectLeafKeys maxLen es
      .ok (e.key :: r.1, e.value :: r.2)

/-- The internal-branch key loop of `Serialize`, with the same
`MAX_KEY_LENGTH` guard. -/
def collectInternalKeys (maxLen : Nat) : List (Key × Nat) → Except DbError (List Key)
  | [] => .ok []
  | e :: es =>
    if e.1.length > maxLen then .error .invalidArgument
    else do
      let r ← collectInternalKeys maxLen es
      .ok (e.1 :: r)

/-- The key-area write loop of `Serialize`: keys grow down from the page
tail; running into the offset array (`key_data_ptr < pos`) raises
`RECORD_TOO_LARGE`.  Returns the offset shorts and the final
`key_data_ptr`. -/
def writeKeys (pageHeaderSize : Nat) (pos : Int) :
    Int → List Key → Except DbError (List Int × Int)
  | ptr, [] => .ok ([], ptr)
  | ptr, k :: ks =>
    let ptr1 : Int := ptr - k.length
    if ptr1 < pos then .error .recordTooLarge
    else
      let ptr2 : Int := ptr1 - 2
      if ptr2 < pos then .error .recordTooLarge
      else do
        let r ← writeKeys pageHeaderSize pos ptr2 ks
        .ok ((ptr2 - pageHeaderSize) :: r.1, r.2)

/-- `BPlusTreeNode::Serialize`.  Checks, in source order: a missing page
id and a key count above `BTREE_MAX_KEYS` raise `INVALID_ARGUMENT`; in
the leaf branch every entry key is checked against `MAX_KEY_LENGTH`
(`INVALID_ARGUMENT` on overflow) while values are gathered; the internal
branch additionally requires `children = key_count + 1`; finally the keys
are packed from the page tail with `RECORD_TOO_LARGE` space checks.  (The
source's `leaf_entries_.size() != keys` / `internal_entries_.size() !=
keys` consistency checks are identically false here because `key_count()`
is defined as that same size.) -/
def serializeNode (cfg : BTConfig) (node : BPlusTreeNodeM) : Except DbError PageM := do
  if node.pageId = INVALID_PAGE_ID then .error .invalidArgument
  else
    let keys := match node.nodeType with
      | .leaf => node.leafEntries.length
      | .internal => node.internalEntries.length
    if keys > cfg.btreeMaxKeys then .error .invalidArgument
    else do
      let collected ←
        match node.nodeType with
        | .leaf => do
          let r ← collectLeafKeys cfg.maxKeyLength node.leafEntries
          pure (r.1, r.2, ([] : List Nat),
            cfg.pageHeaderSize + cfg.nodeHeaderSize + keys * 8)
        | .internal => do
          if node.children.length ≠ keys + 1 then throw .invalidArgument
          else do
            let ks ← collectInternalKeys cfg.maxKeyLength node.internalEntries
            pure (ks, ([] : List Nat), node.children,
              cfg.pageHeaderSize + cfg.nodeHeaderSize + node.children.length * 4)
      let pos : Nat := collected.2.2.2 + keys * 2
      let written ← writeKeys cfg.pageHeaderSize pos (cfg.pageSize : Int) collected.1
      pure {
        pageType := .index
        pageId := node.pageId
        header := {
          magic := kNodeMagic
          nodeType := node.nodeType.tag
          keyCount := keys
          parentPageId := node.parentPageId
          nextLeafPageId := match node.nodeType with
            | .leaf => node.nextLeafPageId
            | .internal => INVALID_PAGE_ID
          prevLeafPageId := match node.nodeType with
            | .leaf => node.prevLeafPageId
            | .internal => INVALID_PAGE_ID
          keyDataOffset := written.2 - cfg.pageHeaderSize
        }
        body := {
          values := collected.2.1
          children := collected.2.2.1
          keyOffsets := written.1
          keys := collected.1
        }
      }

/-- `BPlusTreeNode::ReadHeader` (the first step of `Deserialize`): a
non-INDEX page raises `INVALID_PAGE_TYPE`; then a magic mismatch, an
unknown node-type tag, a key count above `BTREE_MAX_KEYS`, or an
out-of-range key-data offset raise `INVALID_RECORD_FORMAT`, in that
order. -/
def readHeader (cfg : BTConfig) (page : PageM) : Except DbError RawHeaderM :=
  if page.pageType ≠ .index then .error .invalidPageType
  else
    let header := page.header
    if header.magic ≠ kNodeMagic then .error .invalidRecordFormat
    else if header.nodeType > 1 then .error .invalidRecordFormat
    else if header.keyCount > cfg.btreeMaxKeys then .error .invalidRecordFormat
    else if header.keyDataOffset < (cfg.nodeHeaderSize : Int) ∨
        header.keyDataOffset > ((cfg.pageSize : Int) - cfg.pageHeaderSize) then
      .error .invalidRecordFormat
    else .ok header

theorem collectLeafKeys_oversized {maxLen : Nat} {es : List LeafEntryM}
    (h : ∃ e ∈ es, maxLen < e.key.length) :
    collectLeafKeys maxLen es = .error .invalidArgument := by
  induction es with
  | nil => simp at h
  | cons e es ih =>
    by_cases he : e.key.length > maxLen
    · simp [collectLeafKeys, he]
    · rcases h with ⟨x, hx, hlen⟩
      rcases List.mem_cons.mp hx with rfl | hx'
      · omega
      · have := ih ⟨x, hx', hlen⟩
        simp [collectLeafKeys, he, this, exceptBind_error]

/-- Claim C9: serializing a leaf node containing an entry whose key is
longer than `MAX_KEY_LENGTH` bytes raises `INVALID_ARGUMENT`, and reading
back an INDEX page whose node magic field differs from the expected magic
constant raises `INVALID_RECORD_FORMAT` (the first step of
`Deserialize`). -/
theorem C9_node_encoding_guards :
    (∀ (cfg : BTConfig) (node : BPlusTreeNodeM), node.nodeType = .leaf →
      (∃ e ∈ node.leafEntries, cfg.maxKeyLength < e.key.length) →
      serializeNode cfg node = .error .invalidArgument) ∧
    (∀ (cfg : BTConfig) (page : PageM), page.pageType = .index →
      page.header.magic ≠ kNodeMagic →
      readHeader cfg page = .error .invalidRecordFormat) := by
  constructor
  · intro cfg node hleaf hkey
    by_cases hpid : node.pageId = INVALID_PAGE_ID
    · simp [serializeNode, hpid]
    · by_cases hcnt : (match node.nodeType with
        | .leaf => node.leafEntries.length
        | .internal => node.internalEntries.length) > cfg.btreeMaxKeys
      · simp only [serializeNode, hpid, if_neg, ite_false]
        rw [if_pos hcnt]
      · simp only [serializeNode, hpid, ite_false]
        rw [if_neg hcnt, hleaf]
        simp only [hleaf]
        rw [collectLeafKeys_oversized hkey]
        rfl
  · intro cfg page htype hmagic
    simp [readHeader, htype, hmagic]

/-- Witness for C9: the scenarios of the repo's own node tests — a leaf
with a key one byte over the limit, and an INDEX page whose magic was
overwritten with `0xDEADBEEF`. -/
theorem C9_node_encoding_guards_witness :
    serializeNode ⟨4096, 32, 24, 8, 256⟩
      ⟨.leaf, 900, 0, 0, 0, [⟨[1, 2, 3, 4, 5, 6, 7, 8, 9], 11⟩], [], []⟩ =
      .error .invalidArgument ∧
    readHeader ⟨4096, 32, 24, 8, 256⟩
      ⟨.index, 77, ⟨0xDEADBEEF, 1, 0, 0, 0, 0, 24⟩, ⟨[], [], [], []⟩⟩ =
      .error .invalidRecordFormat := by
  constructor
  · exact C9_node_encoding_guards.1 ⟨4096, 32, 24, 8, 256⟩
      ⟨.leaf, 900, 0, 0, 0, [⟨[1, 2, 3, 4, 5, 6, 7, 8, 9], 11⟩], [], []⟩ rfl
      ⟨⟨[1, 2, 3, 4, 5, 6, 7, 8, 9], 11⟩, by decide⟩
  · exact C9_node_encoding_guards.2 ⟨4096, 32, 24, 8, 256⟩
      ⟨.index, 77, ⟨0xDEADBEEF, 1, 0, 0, 0, 0, 24⟩, ⟨[], [], [], []⟩⟩ rfl (by decide)

/-! ## Runtime values and SELECT post-processing
(src/unnamed/part_009, `DMLExecutor::select` lines 715-770,
`row_signature` / `value_signature`). -/

/-- Column data types (spec §3).  FLOAT/DOUBLE are omitted from the value
model below: floating point is outside this embedding. -/
inductive DataTypeM where
  | nullType
  | boolean
  | integer
  | bigint
  | date
  | timestamp
  | varchar
  | text
deriving DecidableEq

/-- Modelled from the spec: the numeric value of
`static_cast<int>(value.type())` used by `value_signature`; the concrete
numbers live in the missing `common/value.h`, the model only needs a
fixed tag per type. -/
def DataTypeM.tag : DataTypeM → Nat
  | .nullType => 0
  | .boolean => 1
  | .integer => 2
  | .bigint => 3
  | .date => 4
  | .timestamp => 5
  | .varchar => 6
  | .text => 7

/-- Modelled from the spec: the runtime `Value` of `common/value.h` is
not among the sources.  Spec §4.9/§6: a typed scalar or a typed NULL;
integer-like types carry a 64-bit value, VARCHAR/TEXT carry a string. -/
inductive ValueM where
  | vnull (t : DataTypeM)
  | vbool (b : Bool)
  | vint (t : DataTypeM) (i : Int)
  | vstr (t : DataTypeM) (s : String)
deriving DecidableEq

/-- `Value::is_null()`. -/
def ValueM.isNull : ValueM → Bool
  | .vnull _ => true
  | _ => false

/-- `Value::type()`. -/
def ValueM.dtype : ValueM → DataTypeM
  | .vnull t => t
  | .vbool _ => .boolean
  | .vint t _ => t
  | .vstr t _ => t

/-- The four-valued result of `compare()` on Values. -/
inductive CompareResultM where
  | less
  | equal
  | greater
  | unknown
deriving DecidableEq

/-- Modelled from the spec: `compare()` on Values — a NULL operand yields
Unknown; otherwise numeric order, `FALSE < TRUE` for booleans, character
order for strings.  (ORDER BY always compares two values of the same
column, so the mixed-kind rows of this table are never reached there.) -/
def compareValues : ValueM → ValueM → CompareResultM
  | .vnull _, _ => .unknown
  | _, .vnull _ => .unknown
  | .vbool a, .vbool b =>
    if a = b then .equal else if a then .greater else .less
  | .vint _ a, .vint _ b =>
    if a < b then .less else if b < a then .greater else .equal
  | .vstr _ a, .vstr _ b =>
    if a < b then .less else if b < a then .greater else .equal
  | _, _ => .unknown

/-- Modelled from the spec (§6): the display string of a Value — "NULL",
"TRUE"/"FALSE", locale-independent numbers, raw text.  (DATE values would
display as YYYY-MM-DD; no claim below depends on that rendering.) -/
def ValueM.toDisplay : ValueM → String
  | .vnull _ => "NULL"
  | .vbool b => if b then "TRUE" else "FALSE"
  | .vint _ i => toString i
  | .vstr _ s => s

/-- A resolved ORDER BY term (`DMLExecutor::select`, struct OrderTerm):
the flat row index of the key column, the direction, and the column id. -/
structure OrderTermM where
  valueIndex : Nat
  ascending : Bool
  columnId : Nat
deriving DecidableEq

/-- The ORDER BY comparator of `DMLExecutor::select`: for each term in
order, `if (lhs_null != rhs_null) return !lhs_null;` — the row with the
non-NULL key sorts first regardless of direction — then `compare()`
decides via the term's direction, ties falling through to the next
term. -/
def orderLess (terms : List OrderTermM) (lhs rhs : List ValueM) : Bool :=
  match terms with
  | [] => false
  | term :: rest =>
    let lv := lhs.getD term.valueIndex (.vnull .nullType)
    let rv := rhs.getD term.valueIndex (.vnull .nullType)
    if lv.isNull ≠ rv.isNull then !lv.isNull
    else
      match compareValues lv rv with
      | .less => term.ascending
      | .greater => !term.ascending
      | _ => orderLess rest lhs rhs

/-- Stable insertion: place `x` after every element the comparator orders
strictly before it. -/
def stableInsert (lt : α → α → Bool) (x : α) : List α → List α
  | [] => [x]
  | y :: ys => if lt y x then y :: stableInsert lt x ys else x :: y :: ys

/-- Shallow embedding of `std::stable_sort`: a stable sort with respect
to the strict comparator. -/
def stableSort (lt : α → α → Bool) (l : List α) : List α :=
  l.foldr (stableInsert lt) []

/-- `DMLExecutor::value_signature`: the type tag, a `|`, then "NULL" or
the display string. -/
def value_signature (v : ValueM) : String :=
  toString v.dtype.tag ++ "|" ++ (if v.isNull then "NULL" else v.toDisplay)

/-- `DMLExecutor::row_signature`: the projected values' signatures joined
with the 0x1f separator. -/
def row_signature (row : List ValueM) (projection : List Nat) : String :=
  String.intercalate "\x1f"
    (projection.map (fun i => value_signature (row.getD i (.vnull .nullType))))

/-- The DISTINCT loop: keep a row iff its signature was not seen before
(`seen.insert(key).second`). -/
def dedupBySeen (sig : α → String) : List α → List String → List α
  | [], _ => []
  | x :: xs, seen =>
    if sig x ∈ seen then dedupBySeen sig xs seen
    else x :: dedupBySeen sig xs (sig x :: seen)

/-- The post-processing tail of `DMLExecutor::select` (non-aggregate
path), operating on row indices exactly as the source does: the early
`LIMIT 0` return, the ORDER BY stable sort (skipped when the rows arrived
already in final order), the DISTINCT dedup over `row_signature` of the
projection, the LIMIT resize, and the final projection to display
strings. -/
def selectPostProcess (filteredRows : List (List ValueM)) (orderTerms : List OrderTermM)
    (rowsAlreadySorted : Bool) (distinct : Bool) (lim : Nat) (projection : List Nat) :
    List (List String) :=
  if lim = 0 then []
  else
    let rowOf := fun i => filteredRows.getD i []
    let rowIndices := List.range filteredRows.length
    let rowIndices :=
      if orderTerms ≠ [] ∧ rowsAlreadySorted = false then
        stableSort (fun i j => orderLess orderTerms (rowOf i) (rowOf j)) rowIndices
      else rowIndices
    let rowIndices :=
      if distinct then
        dedupBySeen (fun i => row_signature (rowOf i) projection) rowIndices []
      else rowIndices
    let rowIndices := rowIndices.take lim
    rowIndices.map (fun i =>
      projection.map (fun p => ((rowOf i).getD p (.vnull .nullType)).toDisplay))

/-! ### The three post-processing stages as standalone row-level
functions, used to state the pipeline-order claim. -/

/-- ORDER BY stage: the stable sort, skipped when the access path already
delivered the final order (or there are no terms). -/
def orderByStage (orderTerms : List OrderTermM) (alreadySorted : Bool)
    (rows : List (List ValueM)) : List (List ValueM) :=
  if orderTerms ≠ [] ∧ alreadySorted = false then
    stableSort (orderLess orderTerms) rows
  else rows

/-- DISTINCT stage: first-occurrence dedup over the projected columns'
signature. -/
def distinctStage (distinct : Bool) (projection : List Nat)
    (rows : List (List ValueM)) : List (List ValueM) :=
  if distinct then dedupBySeen (fun r => row_signature r projection) rows [] else rows

/-- LIMIT stage: truncation. -/
def limitStage (lim : Nat) (rows : List (List ValueM)) : List (List ValueM) :=
  rows.take lim

/-- Projection to display strings. -/
def projectStage (projection : List Nat) (rows : List (List ValueM)) : List (List String) :=
  rows.map (fun r => projection.map (fun p => (r.getD p (.vnull .nullType)).toDisplay))

theorem map_stableInsert {α β : Type} (lt : β → β → Bool) (f : α → β) (x : α) (l : List α) :
    (stableInsert (fun a b => lt (f a) (f b)) x l).map f = stableInsert lt (f x) (l.map f) := by
  induction l with
  | nil => rfl
  | cons y ys ih =>
    by_cases h : lt (f y) (f x) <;> simp [stableInsert, h, ih]

theorem map_stableSort {α β : Type} (lt : β → β → Bool) (f : α → β) (l : List α) :
    (stableSort (fun a b => lt (f a) (f b)) l).map f = stableSort lt (l.map f) := by
  induction l with
  | nil => rfl
  | cons x xs ih =>
    simp only [stableSort, List.foldr_cons, List.map_cons]
    rw [map_stableInsert]
    congr 1

theorem map_dedupBySeen {α β : Type} (sig : β → String) (f : α → β) (l : List α)
    (seen : List String) :
    (dedupBySeen (fun a => sig (f a)) l seen).map f = dedupBySeen sig (l.map f) seen := by
  induction l generalizing seen with
  | nil => rfl
  | cons x xs ih =>
    by_cases h : sig (f x) ∈ seen <;> simp [dedupBySeen, h, ih]

theorem map_getD_range {α : Type} (l : List α) (d : α) :
    (List.range l.length).map (fun i => l.getD i d) = l := by
  induction l with
  | nil => rfl
  | cons x xs ih =>
    rw [List.length_cons, List.range_succ_eq_map, List.map_cons, List.map_map]
    simp only [Function.comp_def, List.getD_cons_zero, List.getD_cons_succ]
    rw [ih]

/-- Claim C6: for every non-aggregate SELECT, post-processing factors as
the ORDER BY stable sort (skipped when the chosen access path already
delivered the final order), then DISTINCT dedup, then LIMIT truncation,
in that order; and the DISTINCT key is computed from the projected
columns only (two rows agreeing on every projected position have the same
dedup signature). -/
theorem C6_postprocess_order (filteredRows : List (List ValueM))
    (orderTerms : List OrderTermM) (rowsAlreadySorted : Bool) (distinct : Bool)
    (lim : Nat) (projection : List Nat) :
    selectPostProcess filteredRows orderTerms rowsAlreadySorted distinct lim projection =
      projectStage projection
        (limitStage lim
          (distinctStage distinct projection
            (orderByStage orderTerms rowsAlreadySorted filteredRows))) ∧
    (∀ r r' : List ValueM,
      (∀ p ∈ projection, r.getD p (ValueM.vnull .nullType) = r'.getD p (ValueM.vnull .nullType)) →
      row_signature r projection = row_signature r' projection) := by
  constructor
  · by_cases hlim : lim = 0
    · subst hlim
      simp [selectPostProcess, projectStage, limitStage]
    · simp only [selectPostProcess]
      rw [if_neg hlim]
      have hbase : (List.range filteredRows.length).map
          (fun i => filteredRows.getD i ([] : List ValueM)) = filteredRows :=
        map_getD_range filteredRows []
      have h1 : orderByStage orderTerms rowsAlreadySorted filteredRows =
          List.map (fun i => filteredRows.getD i ([] : List ValueM))
            (if orderTerms ≠ [] ∧ rowsAlreadySorted = false then
              stableSort (fun i j => orderLess orderTerms (filteredRows.getD i [])
                (filteredRows.getD j [])) (List.range filteredRows.length)
            else List.range filteredRows.length) := by
        unfold orderByStage
        by_cases hs : orderTerms ≠ [] ∧ rowsAlreadySorted = false
        · rw [if_pos hs, if_pos hs,
            map_stableSort (orderLess orderTerms) (fun i => filteredRows.getD i []), hbase]
        · rw [if_neg hs, if_neg hs, hbase]
      have h2 : ∀ idx : List Nat,
          distinctStage distinct projection
            (List.map (fun i => filteredRows.getD i ([] : List ValueM)) idx) =
          List.map (fun i => filteredRows.getD i ([] : List ValueM))
            (if distinct then
              dedupBySeen (fun i => row_signature (filteredRows.getD i []) projection) idx []
            else idx) := by
        intro idx
        unfold distinctStage
        by_cases hd : distinct
        · rw [if_pos hd, if_pos hd,
            map_dedupBySeen (fun r => row_signature r projection)
              (fun i => filteredRows.getD i [])]
        · rw [if_neg hd, if_neg hd]
      have h3 : ∀ idx : List Nat,
          projectStage projection
            (List.map (fun i => filteredRows.getD i ([] : List ValueM)) idx) =
          idx.map (fun i => projection.map
            (fun p => ((filteredRows.getD i ([] : List ValueM)).getD p
              (ValueM.vnull .nullType)).toDisplay)) := by
        intro idx
        unfold projectStage
        rw [List.map_map]
        rfl
      rw [h1, h2]
      unfold limitStage
      rw [← List.map_take, h3]
  · intro r r' hagree
    unfold row_signature
    congr 1
    apply List.map_congr_left
    intro p hp
    rw [hagree p hp]

/-! ### Claim C3: placement of NULL keys in the ORDER BY sort. -/

/-- Whether a row's key at the given ORDER BY term is NULL. -/
def keyIsNull (t : OrderTermM) (row : List ValueM) : Bool :=
  (row.getD t.valueIndex (.vnull .nullType)).isNull

theorem orderLess_nonnull_null {t : OrderTermM} {rest : List OrderTermM}
    {y x : List ValueM} (hy : keyIsNull t y = false) (hx : keyIsNull t x = true) :
    orderLess (t :: rest) y x = true := by
  unfold keyIsNull at hy hx
  simp only [orderLess]
  rw [if_pos (by rw [hy, hx]; simp), hy]
  rfl

theorem orderLess_null_nonnull {t : OrderTermM} {rest : List OrderTermM}
    {y x : List ValueM} (hy : keyIsNull t y = true) (hx : keyIsNull t x = false) :
    orderLess (t :: rest) y x = false := by
  unfold keyIsNull at hy hx
  simp only [orderLess]
  rw [if_pos (by rw [hy, hx]; simp), hy]
  rfl

theorem mem_stableInsert {lt : α → α → Bool} {x y : α} {l : List α} :
    y ∈ stableInsert lt x l ↔ y = x ∨ y ∈ l := by
  induction l with
  | nil => simp [stableInsert]
  | cons z zs ih =>
    by_cases h : lt z x
    · simp [stableInsert, h, ih]
      tauto
    · simp [stableInsert, h, ih]

theorem stableInsert_append_of_lt {lt : α → α → Bool} {x : α} {pre post : List α}
    (h : ∀ y ∈ pre, lt y x = true) :
    stableInsert lt x (pre ++ post) = pre ++ stableInsert lt x post := by
  induction pre with
  | nil => rfl
  | cons z zs ih =>
    simp only [List.cons_append, stableInsert, h z (by simp), if_pos, List.append_eq]
    rw [ih (fun y hy => h y (by simp [hy]))]

theorem stableInsert_shape (t : OrderTermM) (rest : List OrderTermM) (x : List ValueM)
    (pre post : List (List ValueM))
    (hpre : ∀ r ∈ pre, keyIsNull t r = false) (hpost : ∀ r ∈ post, keyIsNull t r = true) :
    ∃ pre' post', stableInsert (orderLess (t :: rest)) x (pre ++ post) = pre' ++ post' ∧
      (∀ r ∈ pre', keyIsNull t r = false) ∧ (∀ r ∈ post', keyIsNull t r = true) := by
  by_cases hx : keyIsNull t x
  · rw [stableInsert_append_of_lt (fun y hy => orderLess_nonnull_null (hpre y hy) hx)]
    refine ⟨pre, stableInsert (orderLess (t :: rest)) x post, rfl, hpre, ?_⟩
    intro r hr
    rcases mem_stableInsert.mp hr with rfl | hr
    · exact hx
    · exact hpost r hr
  · have hx' : keyIsNull t x = false := by
      simpa using hx
    induction pre with
    | nil =>
      cases post with
      | nil =>
        refine ⟨[x], [], rfl, ?_, by simp⟩
        intro r hr
        simp only [List.mem_singleton] at hr
        subst hr
        exact hx'
      | cons z zs =>
        have hz : orderLess (t :: rest) z x = false :=
          orderLess_null_nonnull (hpost z (by simp)) hx'
        refine ⟨[x], z :: zs, ?_, ?_, hpost⟩
        · simp [stableInsert, hz]
        · intro r hr
          simp only [List.mem_singleton] at hr
          subst hr
          exact hx'
    | cons z zs ih =>
      have hz : keyIsNull t z = false := hpre z (by simp)
      by_cases hzx : orderLess (t :: rest) z x
      · obtain ⟨pre', post', heq, hp1, hp2⟩ := ih (fun r hr => hpre r (by simp [hr]))
        refine ⟨z :: pre', post', ?_, ?_, hp2⟩
        · simp only [List.cons_append, stableInsert, hzx, if_pos, List.append_eq]
          rw [heq]
        · intro r hr
          rcases List.mem_cons.mp hr with rfl | hr
          · exact hz
          · exact hp1 r hr
      · refine ⟨x :: z :: zs, post, ?_, ?_, hpost⟩
        · simp [stableInsert, hzx]
        · intro r hr
          rcases List.mem_cons.mp hr with rfl | hr
          · exact hx'
          · rcases List.mem_cons.mp hr with rfl | hr
            · exact hz
            · exact hpre r (by simp [hr])

/-- Claim C3 (amended): the ORDER BY comparator handles NULL keys before
consulting the term's direction (`return !lhs_null`), so rows whose key
at the primary ORDER BY term is NULL sort after all rows with non-NULL
keys for BOTH ascending and descending terms — nulls last always, not
nulls-first-for-ASC. -/
theorem C3_nulls_sort_last (t : OrderTermM) (rest : List OrderTermM)
    (rows : List (List ValueM)) :
    ∃ pre post, orderByStage (t :: rest) false rows = pre ++ post ∧
      (∀ r ∈ pre, keyIsNull t r = false) ∧ (∀ r ∈ post, keyIsNull t r = true) := by
  have key : ∀ rs : List (List ValueM), ∃ pre post,
      stableSort (orderLess (t :: rest)) rs = pre ++ post ∧
      (∀ r ∈ pre, keyIsNull t r = false) ∧ (∀ r ∈ post, keyIsNull t r = true) := by
    intro rs
    induction rs with
    | nil => exact ⟨[], [], rfl, by simp, by simp⟩
    | cons x xs ih =>
      obtain ⟨pre, post, heq, h1, h2⟩ := ih
      have hstep : stableSort (orderLess (t :: rest)) (x :: xs) =
          stableInsert (orderLess (t :: rest)) x (pre ++ post) := by
        simp only [stableSort, List.foldr_cons]
        rw [show List.foldr (stableInsert (orderLess (t :: rest))) [] xs =
          stableSort (orderLess (t :: rest)) xs from rfl, heq]
      rw [hstep]
      exact stableInsert_shape t rest x pre post h1 h2
  have hA : orderByStage (t :: rest) false rows = stableSort (orderLess (t :: rest)) rows := by
    unfold orderByStage
    rw [if_pos ⟨by simp, rfl⟩]
  rw [hA]
  exact key rows

/-- Claim C3 counterexample: a single ascending ORDER BY term over the
two rows `[NULL]` and `[1]` sorts the NULL row last, not first as the
claim states: the post-processing yields `[["1"], ["NULL"]]`, not
`[["NULL"], ["1"]]`. -/
theorem C3_counterexample :
    selectPostProcess [[ValueM.vnull .integer], [ValueM.vint .integer 1]]
        [⟨0, true, 1⟩] false false 10 [0] = [["1"], ["NULL"]] ∧
    selectPostProcess [[ValueM.vnull .integer], [ValueM.vint .integer 1]]
        [⟨0, true, 1⟩] false false 10 [0] ≠ [["NULL"], ["1"]] := by
  constructor
  · rfl
  · intro h
    have h2 : (([["1"], ["NULL"]]) : List (List String)) = [["NULL"], ["1"]] := by
      rw [← h]
      rfl
    simp at h2

/-! ## Row encoding for INSERT (src/unnamed/part_009,
`DMLExecutor::encode_row`, used by `insert_into`). -/

/-- Column constraints (spec §3). -/
structure ColumnConstraintM where
  notNull : Bool
  primaryKey : Bool
  uniqueCol : Bool
  hasDefault : Bool
  defaultLiteral : String
deriving DecidableEq

/-- A column definition (name, type, VARCHAR bound, constraints). -/
structure ColumnDefM where
  name : String
  type : DataTypeM
  length : Nat
  constraint : ColumnConstraintM
deriving DecidableEq

/-- A catalog column row (spec §3 Column entity). -/
structure ColumnCatalogEntryM where
  tableId : Nat
  columnId : Nat
  ordinalPosition : Nat
  schemaVersion : Nat
  isDropped : Bool
  column : ColumnDefM
deriving DecidableEq

/-- `sql::LiteralValue` kinds produced by the DML parser. -/
inductive LiteralKind where
  | nullLit
  | booleanLit
  | integerLit
  | doubleLit
  | stringLit
deriving DecidableEq

/-- A parsed literal: its kind, the boolean payload, and the raw text. -/
structure LiteralValue where
  kind : LiteralKind
  boolValue : Bool
  text : String
deriving DecidableEq

/-- A record field (spec §4.3): type, NULL flag, payload bytes. -/
structure FieldM where
  type : DataTypeM
  isNull : Bool
  payload : List Nat
deriving DecidableEq

/-- Little-endian bytes of a two's-complement integer of `w` bytes. -/
def intToLEBytes (w : Nat) (v : Int) : List Nat :=
  (List.range w).map (fun i => ((v % (2 ^ (8 * w))).toNat >>> (8 * i)) % 256)

/-- A 16-bit little-endian length. -/
def u16LE (n : Nat) : List Nat := [n % 256, (n / 256) % 256]

/-- Modelled from the spec: `record::from_bool` (§4.3: BOOLEAN is one
byte 0/1); the record header is not among the sources. -/
def from_bool (b : Bool) : FieldM := ⟨.boolean, false, [if b then 1 else 0]⟩

/-- Modelled from the spec: `record::from_int32` (4 bytes little-endian
two's complement). -/
def from_int32 (v : Int) : FieldM := ⟨.integer, false, intToLEBytes 4 v⟩

/-- Modelled from the spec: `record::from_int64` (8 bytes). -/
def from_int64 (v : Int) : FieldM := ⟨.bigint, false, intToLEBytes 8 v⟩

/-- Modelled from the spec: `record::from_date` (8 bytes, DATE tag). -/
def from_date (v : Int) : FieldM := ⟨.date, false, intToLEBytes 8 v⟩

/-- Modelled from the spec: `record::from_string` (raw UTF-8 bytes; code
points stand in for bytes here, identical on ASCII). -/
def from_string (s : String) : FieldM := ⟨.text, false, s.data.map Char.toNat⟩

/-- The NULL bitmap of spec §4.3: bit `i` of the ⌈n/8⌉ bytes is set iff
field `i` is null. -/
def nullBitmap (flags : List Bool) : List Nat :=
  (List.range ((flags.length + 7) / 8)).map (fun j =>
    (List.range 8).foldl (fun acc b =>
      if flags.getD (j * 8 + b) false then acc + 2 ^ b else acc) 0)

/-- Modelled from the spec: `record::encode` (§4.3):
`[field_count:u16][null_bitmap][per field: tag:u8, length:u16,
payload]`. -/
def recordEncode (fields : List FieldM) : List Nat :=
  u16LE fields.length ++ nullBitmap (fields.map FieldM.isNull) ++
    (fields.map (fun f => f.type.tag :: (u16LE f.payload.length ++ f.payload))).flatten

/-- Digit-string accumulator for the integer literal parser. -/
def parseDigits : List Char → Nat → Option Nat
  | [], acc => some acc
  | c :: rest, acc =>
    if c.isDigit then parseDigits rest (acc * 10 + (c.toNat - 48)) else none

/-- Modelled from the spec: `std::stoll` applied to an integer literal —
an optional leading `-` and decimal digits, the shape the lexer produces
(spec §4.8).  No claim depends on parse corner cases. -/
def parseIntLit (s : String) : Option Int :=
  match s.data with
  | [] => none
  | c :: rest =>
    if c = '-' then
      match rest with
      | [] => none
      | _ => (parseDigits rest 0).map (fun n => -(n : Int))
    else (parseDigits (c :: rest) 0).map (fun n => (n : Int))

/-- Modelled from the spec: `parse_date` (`YYYY-MM-DD`, spec §3) lives in
a header not among the sources.  The spec leaves the stored 64-bit value
as "epoch days or seconds"; no claim depends on the numeric encoding, so
the model validates the shape and ranges and returns an injective day
number. -/
def parseDate (s : String) : Option Int :=
  match s.data with
  | [y1, y2, y3, y4, h1, m1, m2, h2, d1, d2] =>
    if h1 = '-' ∧ h2 = '-' ∧ ([y1, y2, y3, y4, m1, m2, d1, d2].all Char.isDigit) then
      let num := fun (cs : List Char) => cs.foldl (fun a c => a * 10 + (c.toNat - 48)) 0
      let y := num [y1, y2, y3, y4]
      let m := num [m1, m2]
      let d := num [d1, d2]
      if 1 ≤ m ∧ m ≤ 12 ∧ 1 ≤ d ∧ d ≤ 31 then
        some ((y * 372 + (m - 1) * 31 + (d - 1) : Nat) : Int)
      else none
    else none
  | _ => none

/-- The per-column body of `encode_row`: a NULL literal fails a NOT NULL
constraint and otherwise yields a null field of the column's type; other
literals convert by the column's type, raising `TYPE_ERROR` on a kind or
parse mismatch and `INVALID_CONSTRAINT` on VARCHAR length overflow.
(DOUBLE columns are outside this embedding — floating point — and
TIMESTAMP falls to the source's default `TYPE_ERROR` branch.) -/
def encodeField (col : ColumnDefM) (lit : LiteralValue) : Except DbError FieldM :=
  if lit.kind = .nullLit then
    if col.constraint.notNull then .error .invalidConstraint
    else .ok ⟨col.type, true, []⟩
  else
    match col.type with
    | .boolean =>
      if lit.kind ≠ .booleanLit then .error .typeError
      else .ok (from_bool lit.boolValue)
    | .integer =>
      if lit.kind ≠ .integerLit then .error .typeError
      else
        match parseIntLit lit.text with
        | none => .error .typeError
        | some v =>
          if v < -(2 ^ 31) ∨ v > 2 ^ 31 - 1 then .error .typeError
          else .ok (from_int32 v)
    | .bigint =>
      if lit.kind ≠ .integerLit then .error .typeError
      else
        match parseIntLit lit.text with
        | none => .error .typeError
        | some v => .ok (from_int64 v)
    | .date =>
      if lit.kind ≠ .stringLit then .error .typeError
      else
        match parseDate lit.text with
        | none => .error .typeError
        | some d => .ok (from_date d)
    | .varchar =>
      if lit.kind ≠ .stringLit then .error .typeError
      else if 0 < col.length ∧ col.length < lit.text.length then .error .invalidConstraint
      else .ok (from_string lit.text)
    | .text =>
      if lit.kind ≠ .stringLit then .error .typeError
      else .ok (from_string lit.text)
    | _ => .error .typeError

/-- The name-to-literal lookup `value_lookup`: `emplace` keeps the first
binding of each name. -/
def lookupLiteral (bindings : List (String × LiteralValue)) (name : String) :
    Option LiteralValue :=
  match bindings with
  | [] => none
  | (n, v) :: rest => if n = name then some v else lookupLiteral rest name

/-- The field-building loop of `encode_row`: iterate the table's catalog
columns in schema (ordinal) order, look each one up by name in the
statement's bindings (`COLUMN_NOT_FOUND` when the statement did not list
it), and convert. -/
def encodeFields (bindings : List (String × LiteralValue)) :
    List ColumnCatalogEntryM → Except DbError (List FieldM)
  | [] => .ok []
  | entry :: rest =>
    match lookupLiteral bindings entry.column.name with
    | none => .error .columnNotFound
    | some lit => do
      let f ← encodeField entry.column lit
      let fs ← encodeFields bindings rest
      .ok (f :: fs)

/-- `DMLExecutor::encode_row`: bind the row's literals to the listed
column names positionally, then encode the payload in the table's schema
ordinal order regardless of the listed order. -/
def encode_row (columns : List ColumnCatalogEntryM) (rowValues : List LiteralValue)
    (columnNames : List String) : Except DbError (List Nat) := do
  let fields ← encodeFields (columnNames.zip rowValues) columns
  .ok (recordEncode fields)

theorem lookupLiteral_perm {b1 b2 : List (String × LiteralValue)}
    (hperm : b1.Perm b2) (hnodup : (b1.map Prod.fst).Nodup) (name : String) :
    lookupLiteral b1 name = lookupLiteral b2 name := by
  induction hperm with
  | nil => rfl
  | cons x l ih =>
    by_cases h : x.1 = name
    · simp [lookupLiteral, h]
    · simp only [lookupLiteral, h, if_neg]
      refine ih ?_ 
      simp only [List.map_cons, List.nodup_cons] at hnodup
      exact hnodup.2
  | swap x y l =>
    have hxy : y.1 ≠ x.1 := by
      simp only [List.map_cons, List.nodup_cons, List.mem_cons] at hnodup
      exact fun h => hnodup.1 (Or.inl h)
    by_cases hy : y.1 = name
    · have hx : x.1 ≠ name := by
        intro h
        exact hxy (hy.trans h.symm)
      simp [lookupLiteral, hx, hy]
    · by_cases hx : x.1 = name
      · simp [lookupLiteral, hx, hy]
      · simp [lookupLiteral, hx, hy]
  | trans h12 h23 ih1 ih2 =>
    have hmid := ((h12.map Prod.fst).nodup_iff).mp hnodup
    rw [ih1 hnodup, ih2 hmid]

theorem encodeFields_congr {b1 b2 : List (String × LiteralValue)}
    (h : ∀ name, lookupLiteral b1 name = lookupLiteral b2 name)
    (columns : List ColumnCatalogEntryM) :
    encodeFields b1 columns = encodeFields b2 columns := by
  induction columns with
  | nil => rfl
  | cons entry rest ih =>
    simp only [encodeFields, h entry.column.name, ih]

/-- Claim C10: for INSERT with an explicit column list, values bind to
columns by name, not by position: when two statements list the same
name-to-literal bindings as permutations of one another (with distinct
names), `encode_row` produces the same encoded payload, because the row
is always encoded in the table's schema ordinal order regardless of the
listed column order. -/
theorem C10_insert_binds_by_name (columns : List ColumnCatalogEntryM)
    (names₁ names₂ : List String) (values₁ values₂ : List LiteralValue)
    (hperm : (names₁.zip values₁).Perm (names₂.zip values₂))
    (hnodup : ((names₁.zip values₁).map Prod.fst).Nodup) :
    encode_row columns values₁ names₁ = encode_row columns values₂ names₂ := by
  unfold encode_row
  rw [encodeFields_congr (lookupLiteral_perm hperm hnodup) columns]

/-- Witness for C10: listing `(id, name)` and `(name, id)` with the
literals permuted accordingly encodes the same row. -/
theorem C10_insert_binds_by_name_witness :
    encode_row
        [⟨1, 1, 0, 1, false, ⟨"id", .integer, 0, ⟨true, true, true, false, ""⟩⟩⟩,
         ⟨1, 2, 1, 1, false, ⟨"name", .varchar, 32, ⟨false, false, false, false, ""⟩⟩⟩]
        [⟨.integerLit, false, "7"⟩, ⟨.stringLit, false, "ada"⟩] ["id", "name"] =
      encode_row
        [⟨1, 1, 0, 1, false, ⟨"id", .integer, 0, ⟨true, true, true, false, ""⟩⟩⟩,
         ⟨1, 2, 1, 1, false, ⟨"name", .varchar, 32, ⟨false, false, false, false, ""⟩⟩⟩]
        [⟨.stringLit, false, "ada"⟩, ⟨.integerLit, false, "7"⟩] ["name", "id"] :=
  C10_insert_binds_by_name _ ["id", "name"] ["name", "id"]
    [⟨.integerLit, false, "7"⟩, ⟨.stringLit, false, "ada"⟩]
    [⟨.stringLit, false, "ada"⟩, ⟨.integerLit, false, "7"⟩]
    (by decide) (by decide)

/-! ## INSERT execution (src/unnamed/part_009, `DMLExecutor::insert_into`).
The statement state is modelled per table: the heap as the list of
encoded payloads in insertion order (the list position standing in for
the `(page_id, slot_id)` record id) and the table's index trees.  The
source encodes the row, decodes it back (`decode_row_values`; by the §8
record round-trip invariant this returns the same fields), inserts the
payload into the heap, and only then inserts the encoded key into every
index — an exception from an index insert propagates after the heap
mutation has already happened, and earlier mutations are not undone. -/

/-- One open index of the target table (`TableIndexContext`): the indexed
column ids and the tree. -/
structure IndexContextM where
  columnIds : List Nat
  tree : BPlusTreeM

/-- The per-table state `insert_into` mutates. -/
structure DmlTableState where
  columns : List ColumnCatalogEntryM
  heap : List (List Nat)
  indexes : List IndexContextM

/-- `build_column_lookup`: column id to position among the columns. -/
def columnLookup (columns : List ColumnCatalogEntryM) (cid : Nat) : Option Nat :=
  columns.findIdx? (fun c => c.columnId = cid)

/-- `DMLExecutor::build_index_key`: gather the index's columns from the
row in index-column order (missing metadata raises `INVALID_ARGUMENT`)
and encode them with the record codec. -/
def build_index_key (ctx : IndexContextM) (columns : List ColumnCatalogEntryM)
    (rowFields : List FieldM) : Except DbError Key := do
  let fields ← ctx.columnIds.foldr
    (fun cid acc => do
      let rest ← acc
      match columnLookup columns cid with
      | none => throw DbError.invalidArgument
      | some i => pure ((rowFields.getD i ⟨.nullType, true, []⟩) :: rest))
    (pure [])
  pure (recordEncode fields)

/-- The per-index loop of `insert_into`: build each key and `Insert` it
with the row's record id.  On an exception the indexes already updated
keep their new state and the remaining ones are untouched — storage
mutations are not rolled back when the statement aborts. -/
def insertIndexesLoop (columns : List ColumnCatalogEntryM) (rowFields : List FieldM)
    (rid : Nat) : List IndexContextM → (Except DbError Unit) × List IndexContextM
  | [] => (.ok (), [])
  | ctx :: rest =>
    match build_index_key ctx columns rowFields with
    | .error e => (.error e, ctx :: rest)
    | .ok key =>
      match ctx.tree.insert key rid with
      | .error e => (.error e, ctx :: rest)
      | .ok tree' =>
        let r := insertIndexesLoop columns rowFields rid rest
        (r.1, { ctx with tree := tree' } :: r.2)

/-- One row of `DMLExecutor::insert_into`: encode the row, append the
payload to the heap (the heap insert), then run the index loop.  The
returned state is the storage state when the call returns or throws. -/
def insert_into_row (st : DmlTableState) (row : List LiteralValue)
    (columnNames : List String) : (Except DbError Unit) × DmlTableState :=
  match encodeFields (columnNames.zip row) st.columns with
  | .error e => (.error e, st)
  | .ok fields =>
    let payload := recordEncode fields
    let heap' := st.heap ++ [payload]
    let rid := st.heap.length
    let r := insertIndexesLoop st.columns fields rid st.indexes
    (r.1, { st with heap := heap', indexes := r.2 })

/-- The single INTEGER PRIMARY KEY column of the C1 scenario. -/
def c1Columns : List ColumnCatalogEntryM :=
  [⟨1, 1, 0, 1, false, ⟨"id", .integer, 0, ⟨true, true, true, false, ""⟩⟩⟩]

/-- The encoded field, payload and index key of the row `id = 7`. -/
def c1Field : FieldM := from_int32 7

/-- The heap payload of the row `id = 7`. -/
def c1Payload : List Nat := recordEncode [c1Field]

/-- The pk-index key of the row `id = 7`. -/
def c1Key : Key := recordEncode [c1Field]

/-- The state before the failing INSERT: one row `id = 7` in the heap and
its entry in the unique pk index. -/
def c1State : DmlTableState :=
  ⟨c1Columns, [c1Payload], [⟨[1], ⟨.leaf [⟨c1Key, 0⟩], true⟩⟩]⟩

/-- Claim C1 evaluated at the failing input: inserting a second row with
`id = 7` into a table whose unique pk index already holds the key fails
with `DUPLICATE_KEY`, yet the heap now contains the new row (the heap
insert happened before the index check and is not reversed), while the
index is unchanged — the row is left in the heap without its index
entries, contradicting the claim. -/
theorem C1_duplicate_key_leaves_orphan_row :
    (insert_into_row c1State [⟨.integerLit, false, "7"⟩] ["id"]).1 =
      .error .duplicateKey ∧
    (insert_into_row c1State [⟨.integerLit, false, "7"⟩] ["id"]).2.heap =
      [c1Payload, c1Payload] ∧
    (insert_into_row c1State [⟨.integerLit, false, "7"⟩] ["id"]).2.heap ≠
      c1State.heap ∧
    (insert_into_row c1State [⟨.integerLit, false, "7"⟩] ["id"]).2.indexes =
      c1State.indexes := by
  have hfields : encodeFields ((["id"].zip [⟨.integerLit, false, "7"⟩])) c1Columns =
      .ok [c1Field] := by
    simp [encodeFields, lookupLiteral, c1Columns, encodeField, parseIntLit, parseDigits,
      exceptBind_ok, exceptPure, c1Field]
  have hkey : build_index_key ⟨[1], ⟨.leaf [⟨c1Key, 0⟩], true⟩⟩ c1Columns [c1Field] =
      .ok c1Key := by
    simp [build_index_key, columnLookup, c1Columns, exceptBind_ok, exceptPure, c1Key]
  have hins : (BPlusTreeM.insert ⟨.leaf [⟨c1Key, 0⟩], true⟩ c1Key 1) =
      .error .duplicateKey := by
    simp [BPlusTreeM.insert, insertRecursive, findLeafIndex, compareKeys_refl,
      exceptBind_ok, exceptBind_error]
  have hloop : insertIndexesLoop c1Columns [c1Field] 1
      [⟨[1], ⟨.leaf [⟨c1Key, 0⟩], true⟩⟩] =
      (.error .duplicateKey, [⟨[1], ⟨.leaf [⟨c1Key, 0⟩], true⟩⟩]) := by
    simp [insertIndexesLoop, hkey, hins]
  have hrun : insert_into_row c1State [⟨.integerLit, false, "7"⟩] ["id"] =
      (.error .duplicateKey, ⟨c1Columns, [c1Payload, c1Payload], [⟨[1], ⟨.leaf [⟨c1Key, 0⟩], true⟩⟩]⟩) := by
    simp only [insert_into_row, c1State, hfields]
    simp [hloop, c1Payload]
  rw [hrun]
  refine ⟨rfl, rfl, ?_, rfl⟩
  simp [c1State]

/-! ## TRUNCATE (src/unnamed/part_009 `DMLExecutor::truncate`,
src/src/engine/expression_evaluator.h `TableHeap::truncate`).
The table file is modelled as a page store (page id to DATA page: slot
directory with tombstones, chain links) plus the freelist; the table's
indexes live in separate files and are modelled alongside. -/

/-- A DATA page: its slot directory (`none` = tombstoned slot) and the
heap chain links. -/
structure DataPageM where
  slots : List (Option (List Nat))
  prevPageId : Nat
  nextPageId : Nat
deriving DecidableEq

/-- The table file: page store and freelist. -/
structure HeapFileState where
  pages : List (Nat × DataPageM)
  freelist : List Nat
deriving DecidableEq

/-- `PageManager::fetch` on the store. -/
def lookupPage : List (Nat × DataPageM) → Nat → Option DataPageM
  | [], _ => none
  | (q, p) :: rest, pid => if q = pid then some p else lookupPage rest pid

/-- `PageManager::free_page`: the page stops being a DATA page of the
store (its header type is zeroed) and its id goes to the freelist. -/
def removePage : List (Nat × DataPageM) → Nat → List (Nat × DataPageM)
  | [], _ => []
  | (q0, p0) :: rest, pid =>
    if q0 = pid then removePage rest pid else (q0, p0) :: removePage rest pid

/-- Writing a page back into the store. -/
def setPage : List (Nat × DataPageM) → Nat → DataPageM → List (Nat × DataPageM)
  | [], pid, p => [(pid, p)]
  | (q, old) :: rest, pid, p =>
    if q = pid then (q, p) :: rest else (q, old) :: setPage rest pid p

/-- The while loop of `TableHeap::truncate` freeing the chain after the
root: follow `next_page_id`, freeing each page.  The loop in the source
runs until `INVALID_PAGE_ID`; the fuel is an upper bound on the chain
length, sufficient for any well-formed (acyclic) chain. -/
def freeChainFrom : Nat → HeapFileState → Nat → HeapFileState
  | 0, st, _ => st
  | fuel + 1, st, current =>
    if current = INVALID_PAGE_ID then st
    else
      match lookupPage st.pages current with
      | none => st
      | some p =>
        freeChainFrom fuel ⟨removePage st.pages current, st.freelist ++ [current]⟩
          p.nextPageId

/-- `TableHeap::truncate`: reset the root page header (no slots, no
records, no siblings, body zeroed), then free every page in the chain
after the root. -/
def tableHeapTruncate (st : HeapFileState) (rootPageId : Nat) : HeapFileState :=
  match lookupPage st.pages rootPageId with
  | none => st
  | some root =>
    let st1 : HeapFileState :=
      ⟨setPage st.pages rootPageId ⟨[], INVALID_PAGE_ID, INVALID_PAGE_ID⟩, st.freelist⟩
    freeChainFrom st.pages.length st1 root.nextPageId

/-- A table at runtime: its root page id, its heap file, its catalog
columns and its index trees (each index in its own file). -/
structure TableRuntimeState where
  rootPageId : Nat
  heap : HeapFileState
  indexes : List IndexContextM

/-- `DMLExecutor::truncate`: resolve the table and call
`TableHeap::truncate` — nothing else; no index is opened or written. -/
def dmlTruncate (t : TableRuntimeState) : TableRuntimeState :=
  { t with heap := tableHeapTruncate t.heap t.rootPageId }

/-- The heap scan: walk the chain from the root, yielding the live
(non-tombstoned) slots of each page. -/
def heapScan (st : HeapFileState) : Nat → Nat → List (List Nat)
  | 0, _ => []
  | fuel + 1, current =>
    if current = INVALID_PAGE_ID then []
    else
      match lookupPage st.pages current with
      | none => []
      | some p => (p.slots.filterMap id) ++ heapScan st fuel p.nextPageId

/-- Scanning a table's rows. -/
def tableScan (t : TableRuntimeState) : List (List Nat) :=
  heapScan t.heap t.heap.pages.length t.rootPageId

/-- The shape of the heap chain starting at a page id: the listed ids are
followed in `next_page_id` order down to `INVALID_PAGE_ID`. -/
inductive HeapChain (pages : List (Nat × DataPageM)) : Nat → List Nat → Prop where
  | nil : HeapChain pages INVALID_PAGE_ID []
  | cons : ∀ pid p rest, pid ≠ INVALID_PAGE_ID → lookupPage pages pid = some p →
      HeapChain pages p.nextPageId rest → HeapChain pages pid (pid :: rest)

/-- Freeing the whole chain: page ids accumulate on the freelist in chain
order and their pages leave the store. -/
def removeAllPages (pages : List (Nat × DataPageM)) (ids : List Nat) :
    List (Nat × DataPageM) :=
  ids.foldl removePage pages

theorem lookupPage_setPage_self (pages : List (Nat × DataPageM)) (pid : Nat) (p : DataPageM) :
    lookupPage (setPage pages pid p) pid = some p := by
  induction pages with
  | nil => simp [setPage, lookupPage]
  | cons e rest ih =>
    by_cases h : e.1 = pid
    · simp [setPage, h, lookupPage]
    · simp [setPage, h, lookupPage, ih]

theorem lookupPage_removePage_ne (pages : List (Nat × DataPageM)) {q pid : Nat}
    (h : q ≠ pid) :
    lookupPage (removePage pages q) pid = lookupPage pages pid := by
  induction pages with
  | nil => rfl
  | cons e rest ih =>
    obtain ⟨q0, p0⟩ := e
    by_cases he : q0 = q
    · subst he
      simp [removePage, lookupPage, h, ih]
    · by_cases hp : q0 = pid
      · have hqp : ¬ pid = q := fun x => h x.symm
        simp [removePage, lookupPage, he, hp, hqp]
      · simp [removePage, lookupPage, he, hp, ih]

theorem lookupPage_removeAll_ne (ids : List Nat) (pages : List (Nat × DataPageM))
    {pid : Nat} (h : pid ∉ ids) :
    lookupPage (removeAllPages pages ids) pid = lookupPage pages pid := by
  induction ids generalizing pages with
  | nil => rfl
  | cons q qs ih =>
    have hq : q ≠ pid := fun he => h (by simp [he])
    have h' : pid ∉ qs := fun hm => h (by simp [hm])
    simp only [removeAllPages, List.foldl_cons]
    rw [show (qs.foldl removePage (removePage pages q)) =
      removeAllPages (removePage pages q) qs from rfl]
    rw [ih (removePage pages q) h', lookupPage_removePage_ne pages hq]

theorem HeapChain_removePage {pages : List (Nat × DataPageM)} {cur : Nat} {ids : List Nat}
    (h : HeapChain pages cur ids) {q : Nat} (hq : q ∉ ids) :
    HeapChain (removePage pages q) cur ids := by
  induction h with
  | nil => exact .nil
  | cons pid p rest hne hlook hrest ih =>
    have hqpid : q ≠ pid := fun he => hq (by simp [he])
    exact .cons pid p rest hne
      (by rw [lookupPage_removePage_ne pages hqpid]; exact hlook)
      (ih (fun hm => hq (by simp [hm])))

theorem mem_keys_of_lookup {pages : List (Nat × DataPageM)} {pid : Nat} {p : DataPageM}
    (h : lookupPage pages pid = some p) : pid ∈ pages.map Prod.fst := by
  induction pages with
  | nil => simp [lookupPage] at h
  | cons e rest ih =>
    by_cases he : e.1 = pid
    · simp [he]
    · simp only [lookupPage, he, if_neg] at h
      simp [ih h]

theorem HeapChain_subset {pages : List (Nat × DataPageM)} {cur : Nat} {ids : List Nat}
    (h : HeapChain pages cur ids) : ∀ id ∈ ids, id ∈ pages.map Prod.fst := by
  induction h with
  | nil => simp
  | cons pid p rest hne hlook hrest ih =>
    intro x hx
    rcases List.mem_cons.mp hx with rfl | hx
    · exact mem_keys_of_lookup hlook
    · exact ih x hx

theorem freeChain_spec {ids : List Nat} :
    ∀ (st : HeapFileState) (cur fuel : Nat),
    HeapChain st.pages cur ids → ids.Nodup → ids.length ≤ fuel →
    freeChainFrom fuel st cur = ⟨removeAllPages st.pages ids, st.freelist ++ ids⟩ := by
  induction ids with
  | nil =>
    intro st cur fuel hchain hnodup hfuel
    cases hchain with
    | nil =>
      cases fuel with
      | zero => simp [freeChainFrom, removeAllPages]
      | succ n => simp [freeChainFrom, removeAllPages, INVALID_PAGE_ID]
  | cons q qs ih =>
    intro st cur fuel hchain hnodup hfuel
    cases hchain with
    | cons pid p rest hne hlook hrest =>
      cases fuel with
      | zero => simp at hfuel
      | succ n =>
        have hq : q ∉ qs := (List.nodup_cons.mp hnodup).1
        simp only [freeChainFrom, hne, if_neg, hlook]
        have hchain' : HeapChain (removePage st.pages q) p.nextPageId qs :=
          HeapChain_removePage hrest hq
        have hle : qs.length ≤ n := by
          simp only [List.length_cons] at hfuel
          omega
        have hrec := ih ⟨removePage st.pages q, st.freelist ++ [q]⟩ p.nextPageId n hchain'
          (List.nodup_cons.mp hnodup).2 hle
        rw [hrec]
        simp [removeAllPages, List.foldl_cons]

theorem heapScan_invalid (st : HeapFileState) (fuel : Nat) :
    heapScan st fuel INVALID_PAGE_ID = [] := by
  cases fuel <;> simp [heapScan, INVALID_PAGE_ID]

theorem lookupPage_setPage_ne (pages : List (Nat × DataPageM)) {q pid : Nat}
    (p : DataPageM) (h : q ≠ pid) :
    lookupPage (setPage pages q p) pid = lookupPage pages pid := by
  have hqp : ¬ pid = q := fun x => h x.symm
  induction pages with
  | nil => simp [setPage, lookupPage, h, hqp]
  | cons e rest ih =>
    by_cases he : e.1 = q
    · have hep : ¬ e.1 = pid := by rw [he]; exact h
      simp [setPage, he, lookupPage, hep, h]
    · by_cases hp : e.1 = pid
      · simp [setPage, he, lookupPage, hp, hqp]
      · simp [setPage, he, lookupPage, hp, ih]

theorem HeapChain_setPage {pages : List (Nat × DataPageM)} {cur : Nat} {ids : List Nat}
    (h : HeapChain pages cur ids) {q : Nat} (p : DataPageM) (hq : q ∉ ids) :
    HeapChain (setPage pages q p) cur ids := by
  induction h with
  | nil => exact .nil
  | cons pid pg rest hne hlook hrest ih =>
    have hqpid : q ≠ pid := fun he => hq (by simp [he])
    exact .cons pid pg rest hne
      (by rw [lookupPage_setPage_ne pages p hqpid]; exact hlook)
      (ih (fun hm => hq (by simp [hm])))

theorem length_le_setPage (pages : List (Nat × DataPageM)) (pid : Nat) (p : DataPageM) :
    pages.length ≤ (setPage pages pid p).length := by
  induction pages with
  | nil => simp [setPage]
  | cons e rest ih =>
    obtain ⟨a, b⟩ := e
    by_cases he : a = pid
    · simp [setPage, he]
    · simp only [setPage, if_neg he, List.length_cons]
      omega

theorem lookup_ne_nil {pages : List (Nat × DataPageM)} {pid : Nat} {p : DataPageM}
    (h : lookupPage pages pid = some p) : pages ≠ [] := by
  intro he
  rw [he] at h
  simp [lookupPage] at h

/-- Claim C8: executing TRUNCATE mutates only the table heap — the root
page is reset and the chain pages after the root are freed (they join the
freelist, in chain order) — while the table's index trees are left
completely unchanged, entry sets included; the emptied heap then scans to
zero rows. -/
theorem C8_truncate_touches_only_heap (t : TableRuntimeState) (rootPage : DataPageM)
    (chain : List Nat)
    (hroot : t.rootPageId ≠ INVALID_PAGE_ID)
    (hlook : lookupPage t.heap.pages t.rootPageId = some rootPage)
    (hchain : HeapChain t.heap.pages rootPage.nextPageId chain)
    (hnodup : (t.rootPageId :: chain).Nodup) :
    (dmlTruncate t).indexes = t.indexes ∧
    (dmlTruncate t).rootPageId = t.rootPageId ∧
    (dmlTruncate t).heap.freelist = t.heap.freelist ++ chain ∧
    tableScan (dmlTruncate t) = [] := by
  have hrootnotin : t.rootPageId ∉ chain := (List.nodup_cons.mp hnodup).1
  have hchainnodup : chain.Nodup := (List.nodup_cons.mp hnodup).2
  have hchain1 : HeapChain
      (setPage t.heap.pages t.rootPageId ⟨[], INVALID_PAGE_ID, INVALID_PAGE_ID⟩)
      rootPage.nextPageId chain :=
    HeapChain_setPage hchain _ hrootnotin
  have hsub : ∀ id ∈ chain, id ∈ t.heap.pages.map Prod.fst := HeapChain_subset hchain
  have hlen : chain.length ≤ t.heap.pages.length := by
    have hsp : chain.Subperm (t.heap.pages.map Prod.fst) :=
      List.Nodup.subperm hchainnodup hsub
    simpa using hsp.length_le
  have hfree : freeChainFrom t.heap.pages.length
      ⟨setPage t.heap.pages t.rootPageId ⟨[], INVALID_PAGE_ID, INVALID_PAGE_ID⟩,
        t.heap.freelist⟩ rootPage.nextPageId =
      ⟨removeAllPages
          (setPage t.heap.pages t.rootPageId ⟨[], INVALID_PAGE_ID, INVALID_PAGE_ID⟩)
          chain,
        t.heap.freelist ++ chain⟩ :=
    freeChain_spec
      ⟨setPage t.heap.pages t.rootPageId ⟨[], INVALID_PAGE_ID, INVALID_PAGE_ID⟩,
        t.heap.freelist⟩
      rootPage.nextPageId t.heap.pages.length hchain1 hchainnodup hlen
  have hheap : (dmlTruncate t).heap =
      ⟨removeAllPages
          (setPage t.heap.pages t.rootPageId ⟨[], INVALID_PAGE_ID, INVALID_PAGE_ID⟩)
          chain,
        t.heap.freelist ++ chain⟩ := by
    simp only [dmlTruncate, tableHeapTruncate, hlook]
    exact hfree
  refine ⟨rfl, rfl, by rw [hheap], ?_⟩
  -- the truncated root page still resolves, now empty
  have hlookroot : lookupPage (dmlTruncate t).heap.pages t.rootPageId =
      some ⟨[], INVALID_PAGE_ID, INVALID_PAGE_ID⟩ := by
    rw [hheap]
    rw [show (⟨removeAllPages
        (setPage t.heap.pages t.rootPageId ⟨[], INVALID_PAGE_ID, INVALID_PAGE_ID⟩) chain,
        t.heap.freelist ++ chain⟩ : HeapFileState).pages = removeAllPages
        (setPage t.heap.pages t.rootPageId ⟨[], INVALID_PAGE_ID, INVALID_PAGE_ID⟩) chain
      from rfl]
    rw [lookupPage_removeAll_ne chain _ hrootnotin]
    exact lookupPage_setPage_self t.heap.pages t.rootPageId _
  unfold tableScan
  obtain ⟨n, hn⟩ : ∃ n, (dmlTruncate t).heap.pages.length = n + 1 := by
    have := lookup_ne_nil hlookroot
    cases hp : (dmlTruncate t).heap.pages with
    | nil => exact absurd hp this
    | cons a l => exact ⟨l.length, by simp [hp]⟩
  rw [hn]
  rw [show (dmlTruncate t).rootPageId = t.rootPageId from rfl]
  simp only [heapScan, hroot, if_neg, hlookroot]
  simp [heapScan_invalid]

/-- The C8 witness heap: root page 1 holds one live row and a tombstone
and chains to page 2; page 2 holds one row and ends the chain; one unique
pk index is open on the table. -/
def c8Root : DataPageM := ⟨[some [1, 2], none], 0, 2⟩

/-- The second (and last) page of the C8 witness chain. -/
def c8Page2 : DataPageM := ⟨[some [3]], 1, 0⟩

/-- The C8 witness table state. -/
def c8State : TableRuntimeState :=
  ⟨1, ⟨[(1, c8Root), (2, c8Page2)], []⟩, [⟨[1], ⟨.leaf [⟨[0], 0⟩], true⟩⟩]⟩

/-- Witness for C8 at the concrete two-page table: TRUNCATE leaves the
index list and root id unchanged, frees exactly page 2 onto the freelist,
and the table then scans to zero rows. -/
theorem C8_truncate_touches_only_heap_witness :
    (dmlTruncate c8State).indexes = c8State.indexes ∧
    (dmlTruncate c8State).rootPageId = c8State.rootPageId ∧
    (dmlTruncate c8State).heap.freelist = c8State.heap.freelist ++ [2] ∧
    tableScan (dmlTruncate c8State) = [] :=
  C8_truncate_touches_only_heap c8State c8Root [2] (by decide) (by decide)
    (HeapChain.cons 2 c8Page2 [] (by decide) (by decide) HeapChain.nil)
    (by decide)

/- Section H — C4: CREATE TABLE failure handling in
`DDLExecutor::create_from_ast` (ddl_executor.cpp lines 91-158).  The
executor validates the statement, allocates the heap root page, writes
the catalog rows, synthesizes the automatic `<table>_pk` unique index
when a primary-key column exists, and finally creates the table's data
file.  Only the data-file step is guarded: on `!ofs` it calls
`catalog_.drop_table(entry.name, true)` and `pm_.free_page(root)` before
throwing.  The pk-index synthesis call has no try/catch around it.  The
two fallible effectful steps whose internal failure causes are outside
this function (any exception from `create_index_from_ast`, a failed
`std::ofstream`) are modelled as injected booleans. -/

/-- One column of the CREATE TABLE AST: its (already normalized) name and
whether it carries PRIMARY KEY. -/
structure ColumnAstM where
  name : String
  primaryKey : Bool
deriving DecidableEq

/-- A table row of the catalog (`TableCatalogEntry`): name, id, heap root. -/
structure TableEntryD where
  name : String
  tableId : Nat
  rootPageId : Nat
deriving DecidableEq

/-- An index row of the catalog (`IndexCatalogEntry`): name and owning table. -/
structure IndexEntryD where
  name : String
  tableId : Nat
deriving DecidableEq

/-- The storage/catalog state `create_from_ast` mutates: catalog tables
and indexes, the allocated page ids, and the two id counters. -/
structure DdlState where
  tables : List TableEntryD
  indexes : List IndexEntryD
  allocated : List Nat
  nextPage : Nat
  nextTableId : Nat
deriving DecidableEq

/-- `PageManager::new_page`: hand out the next page id. -/
def ddlNewPage (st : DdlState) : Nat × DdlState :=
  (st.nextPage,
    { st with allocated := st.allocated ++ [st.nextPage], nextPage := st.nextPage + 1 })

/-- `PageManager::free_page`. -/
def ddlFreePage (st : DdlState) (pid : Nat) : DdlState :=
  { st with allocated := st.allocated.erase pid }

/-- `CatalogManager::create_table`: reject a duplicate name with
TABLE_EXISTS, else assign the next table id and append the entry. -/
def catalogCreateTable (st : DdlState) (name : String) (root : Nat) :
    Except DbError (TableEntryD × DdlState) :=
  if st.tables.any (fun e => e.name == name) then .error .tableExists
  else
    .ok (⟨name, st.nextTableId, root⟩,
      { st with tables := st.tables ++ [⟨name, st.nextTableId, root⟩],
                nextTableId := st.nextTableId + 1 })

/-- `CatalogManager::drop_table`: remove the first entry with the name and
every index row of that table (column rows are not modelled here). -/
def catalogDropTable (st : DdlState) (name : String) : DdlState :=
  match st.tables.find? (fun e => e.name == name) with
  | none => st
  | some removed =>
    { st with tables := st.tables.eraseP (fun e => e.name == name),
              indexes := st.indexes.filter (fun i => ! (i.tableId == removed.tableId)) }

/-- The validation loop over `stmt.columns`: reject an empty name, a
duplicate name (via the seen set) and a second PRIMARY KEY column;
return the primary-key column name if one exists. -/
def scanColumns : List ColumnAstM → List String → Option String →
    Except DbError (Option String)
  | [], _, pk => .ok pk
  | c :: rest, seen, pk =>
    if c.name = "" then .error .invalidArgument
    else if seen.contains c.name then .error .duplicateColumn
    else if c.primaryKey then
      match pk with
      | some _ => .error .invalidConstraint
      | none => scanColumns rest (c.name :: seen) (some c.name)
    else scanColumns rest (c.name :: seen) pk

/-- The final step of `create_from_ast`: create the table's data file; on
failure, drop the just-created table from the catalog, free its root page
and rethrow as an IO error. -/
def createTableFile (st : DdlState) (entry : TableEntryD) (fileCreateFails : Bool) :
    (Except DbError Unit) × DdlState :=
  if fileCreateFails then
    (.error .ioError, ddlFreePage (catalogDropTable st entry.name) entry.rootPageId)
  else (.ok (), st)

/-- `DDLExecutor::create_from_ast`: validate, allocate the root page,
write the catalog entry, synthesize the `<table>_pk` unique index when a
primary-key column exists (`pkIndexFails` injects an exception thrown
inside that call — it is NOT wrapped in any try/catch, so the state at
the throw is returned as-is), then create the data file
(`fileCreateFails` injects the `!ofs` failure, the one guarded path). -/
def create_from_ast (st : DdlState) (tableName : String) (cols : List ColumnAstM)
    (maxColumns : Nat) (pkIndexFails fileCreateFails : Bool) :
    (Except DbError Unit) × DdlState :=
  if tableName = "" then (.error .invalidArgument, st)
  else if cols.length = 0 then (.error .invalidArgument, st)
  else if maxColumns < cols.length then (.error .invalidConstraint, st)
  else
    match scanColumns cols [] none with
    | .error e => (.error e, st)
    | .ok pkName =>
      let root := (ddlNewPage st).1
      let st1 := (ddlNewPage st).2
      match catalogCreateTable st1 tableName root with
      | .error e => (.error e, st1)
      | .ok (entry, st2) =>
        match pkName with
        | some _ =>
          if pkIndexFails then (.error .ioError, st2)
          else
            let st3 : DdlState :=
              { st2 with indexes := st2.indexes ++ [⟨tableName ++ "_pk", entry.tableId⟩] }
            createTableFile st3 entry fileCreateFails
        | none => createTableFile st2 entry fileCreateFails

theorem tfind_append_last {ts : List TableEntryD} {n : String}
    (h : ∀ t ∈ ts, (t.name == n) = false) {e : TableEntryD} (he : (e.name == n) = true) :
    (ts ++ [e]).find? (fun t => t.name == n) = some e := by
  induction ts with
  | nil => simp [List.find?, he]
  | cons a rest ih =>
    have ha := h a (by simp)
    simp only [List.cons_append]
    rw [List.find?_cons_of_neg _ (by simp [ha])]
    exact ih (fun t ht => h t (by simp [ht]))

theorem teraseP_append_last {ts : List TableEntryD} {n : String}
    (h : ∀ t ∈ ts, (t.name == n) = false) {e : TableEntryD} (he : (e.name == n) = true) :
    (ts ++ [e]).eraseP (fun t => t.name == n) = ts := by
  induction ts with
  | nil => simp [List.eraseP, he]
  | cons a rest ih =>
    have ha := h a (by simp)
    simp only [List.cons_append, List.eraseP_cons, ha, cond_false]
    rw [ih (fun t ht => h t (by simp [ht]))]

theorem ifilter_append_last {is : List IndexEntryD} {tid : Nat}
    (h : ∀ i ∈ is, (i.tableId == tid) = false) {j : IndexEntryD}
    (hj : (j.tableId == tid) = true) :
    (is ++ [j]).filter (fun i => ! (i.tableId == tid)) = is := by
  induction is with
  | nil => simp [List.filter, hj]
  | cons a rest ih =>
    have ha := h a (by simp)
    simp only [List.cons_append, List.filter_cons, ha, Bool.not_false, if_pos]
    rw [ih (fun i hi => h i (by simp [hi]))]

theorem erase_append_fresh {l : List Nat} {a : Nat} (h : a ∉ l) :
    (l ++ [a]).erase a = l := by
  induction l with
  | nil => simp
  | cons x rest ih =>
    have hxa : ¬ x = a := fun he => h (by simp [he])
    have hax : a ≠ x := fun he => hxa he.symm
    simp only [List.cons_append, List.erase_cons]
    rw [if_neg (by simp [hxa]), ih (fun hm => h (by simp [hm]))]

/-- The C4 failing scenario: a fresh database (no tables, no indexes, no
allocated pages, next page 5, next table id 1) and a CREATE TABLE with a
single PRIMARY KEY column, where the pk-index synthesis throws. -/
def c4State : DdlState := ⟨[], [], [], 5, 1⟩

/-- Counterexample to claim C4: when the automatic `<table>_pk` index
synthesis fails (after the catalog rows were written), the statement does
NOT roll back — the exception propagates, the new table stays in the
catalog and its heap root page stays allocated, because the rollback in
`create_from_ast` only guards the later data-file creation step. -/
theorem C4_counterexample :
    (create_from_ast c4State "t" [⟨"id", true⟩] 16 true false).1 = .error .ioError ∧
    (create_from_ast c4State "t" [⟨"id", true⟩] 16 true false).2.tables =
      [⟨"t", 1, 5⟩] ∧
    (create_from_ast c4State "t" [⟨"id", true⟩] 16 true false).2.allocated = [5] ∧
    (create_from_ast c4State "t" [⟨"id", true⟩] 16 true false).2 ≠ c4State := by
  refine ⟨rfl, rfl, rfl, by decide⟩

/-- Claim C4 (amended): in `create_from_ast` the compensating rollback
(`drop_table` + `free_page`) guards only the table data-file creation
step, not the pk-index synthesis.  With a primary-key column present:
(1) if the data-file creation fails (and the pk synthesis does not), the
statement restores the catalog tables, the catalog indexes and the
allocated-page set to their prior values; (2) if the pk-index synthesis
fails, the error propagates while the new table entry remains cataloged
and its root page remains allocated — no rollback happens. -/
theorem C4_rollback_guards_file_creation
    (st : DdlState) (tableName : String) (cols : List ColumnAstM) (maxColumns : Nat)
    (pkn : String)
    (hpk : scanColumns cols [] none = .ok (some pkn))
    (hfresh : st.nextPage ∉ st.allocated)
    (htid : ∀ i ∈ st.indexes, (i.tableId == st.nextTableId) = false) :
    ((create_from_ast st tableName cols maxColumns false true).1 = .error .ioError →
      (create_from_ast st tableName cols maxColumns false true).2.tables = st.tables ∧
      (create_from_ast st tableName cols maxColumns false true).2.indexes = st.indexes ∧
      (create_from_ast st tableName cols maxColumns false true).2.allocated =
        st.allocated) ∧
    ((create_from_ast st tableName cols maxColumns true false).1 = .error .ioError →
      (create_from_ast st tableName cols maxColumns true false).2.tables =
        st.tables ++ [⟨tableName, st.nextTableId, st.nextPage⟩] ∧
      st.nextPage ∈ (create_from_ast st tableName cols maxColumns true false).2.allocated) := by
  by_cases h1 : tableName = ""
  · constructor <;> (intro hio; simp [create_from_ast, h1] at hio)
  by_cases h2 : cols.length = 0
  · constructor <;> (intro hio; simp [create_from_ast, h1, h2] at hio)
  by_cases h3 : maxColumns < cols.length
  · constructor <;> (intro hio; simp [create_from_ast, h1, h2, h3] at hio)
  by_cases hex : st.tables.any (fun e => e.name == tableName)
  · constructor <;>
      (intro hio; simp [create_from_ast, h1, h2, h3, hpk, ddlNewPage,
        catalogCreateTable, hex] at hio)
  have hno : ∀ t ∈ st.tables, (t.name == tableName) = false := by
    intro t ht
    have := (List.any_eq_false).mp (Bool.eq_false_iff.mpr hex) t ht
    exact Bool.eq_false_iff.mpr this
  have hself : ((⟨tableName, st.nextTableId, st.nextPage⟩ : TableEntryD).name
      == tableName) = true := by simp
  have hjt : ((⟨tableName ++ "_pk", st.nextTableId⟩ : IndexEntryD).tableId
      == st.nextTableId) = true := by simp
  constructor
  · intro _
    simp only [create_from_ast, if_neg h1, if_neg h2, if_neg h3, hpk, ddlNewPage,
      catalogCreateTable, createTableFile, if_pos, if_neg, Bool.false_eq_true,
      ite_false, ite_true]
    simp only [hex, Bool.false_eq_true, if_neg, if_false]
    simp only [catalogDropTable, ddlFreePage]
    rw [tfind_append_last hno hself]
    refine ⟨?_, ?_, ?_⟩
    · simp only []
      rw [teraseP_append_last hno hself]
    · simp only []
      rw [ifilter_append_last htid hjt]
    · simp only []
      rw [erase_append_fresh hfresh]
  · intro _
    simp only [create_from_ast, if_neg h1, if_neg h2, if_neg h3, hpk, ddlNewPage,
      catalogCreateTable]
    simp only [hex, Bool.false_eq_true, if_neg, if_false, ite_true]
    simp

/-- Witness for C4 at the fresh database and the single-pk-column CREATE
TABLE: file-creation failure rolls the state back, pk-synthesis failure
leaves the table cataloged with its root page allocated. -/
theorem C4_rollback_guards_file_creation_witness :
    ((create_from_ast c4State "t" [⟨"id", true⟩] 16 false true).1 = .error .ioError →
      (create_from_ast c4State "t" [⟨"id", true⟩] 16 false true).2.tables =
        c4State.tables ∧
      (create_from_ast c4State "t" [⟨"id", true⟩] 16 false true).2.indexes =
        c4State.indexes ∧
      (create_from_ast c4State "t" [⟨"id", true⟩] 16 false true).2.allocated =
        c4State.allocated) ∧
    ((create_from_ast c4State "t" [⟨"id", true⟩] 16 true false).1 = .error .ioError →
      (create_from_ast c4State "t" [⟨"id", true⟩] 16 true false).2.tables =
        c4State.tables ++ [⟨"t", c4State.nextTableId, c4State.nextPage⟩] ∧
      c4State.nextPage ∈
        (create_from_ast c4State "t" [⟨"id", true⟩] 16 true false).2.allocated) :=
  C4_rollback_guards_file_creation c4State "t" [⟨"id", true⟩] 16 "id"
    rfl (by decide) (by decide)

/- Section I — C7: `CatalogManager::add_column` / `drop_column`
(catalog_manager.cpp lines 251-395) and the effective column list
(`get_columns`, lines 229-236, via `read_all_columns` which sorts with
`column_entry_less`, lines 52-63).  The model keeps one table's column
rows (entries of other tables are untouched by both operations and sort
before/after them by table id) together with the table's schema_version
and next_column_id.  `std::sort` with a strict comparator is modelled by
insertion sort: on rows with pairwise distinct comparator keys — which
both operations guarantee here, column ids being unique within a table —
every comparison sort produces the same, unique sorted permutation. -/

/-- `ordinal_position` assigned to dropped rows:
`std::numeric_limits<uint32_t>::max()`. -/
def ORDINAL_DROPPED : Nat := 4294967295

/-- `column_entry_less`: order by table id, then active before dropped,
then ordinal position, then column id. -/
def column_entry_less (a b : ColumnCatalogEntryM) : Bool :=
  if a.tableId = b.tableId then
    if ¬ (a.isDropped = b.isDropped) then !a.isDropped && b.isDropped
    else if a.ordinalPosition = b.ordinalPosition then decide (a.columnId < b.columnId)
    else decide (a.ordinalPosition < b.ordinalPosition)
  else decide (a.tableId < b.tableId)

/-- Sorted insertion of one row (the building block of the `std::sort`
model). -/
def insertSorted (x : ColumnCatalogEntryM) :
    List ColumnCatalogEntryM → List ColumnCatalogEntryM
  | [] => [x]
  | y :: ys => if column_entry_less x y then x :: y :: ys else y :: insertSorted x ys

/-- The `std::sort(all_columns, column_entry_less)` model. -/
def sortCols : List ColumnCatalogEntryM → List ColumnCatalogEntryM
  | [] => []
  | x :: xs => insertSorted x (sortCols xs)

/-- The table's metadata touched by the two operations. -/
structure TableMetaM where
  schemaVersion : Nat
  nextColumnId : Nat
deriving DecidableEq

/-- One table's slice of the column catalog, in storage order. -/
structure CatalogTableState where
  meta : TableMetaM
  cols : List ColumnCatalogEntryM
deriving DecidableEq

/-- `read_all_columns(table_id)`: the table's rows, sorted. -/
def read_all_columns (st : CatalogTableState) : List ColumnCatalogEntryM :=
  sortCols st.cols

/-- `get_columns`: the sorted rows with dropped ones removed. -/
def get_columns (st : CatalogTableState) : List ColumnCatalogEntryM :=
  (read_all_columns st).filter (fun e => !e.isDropped)

/-- The effective active column list of the claim: names, types, ordinal
positions. -/
def activeTriples (st : CatalogTableState) : List (String × DataTypeM × Nat) :=
  (get_columns st).map (fun e => (e.column.name, e.column.type, e.ordinalPosition))

/-- `CatalogManager::add_column`: reject PRIMARY KEY, a duplicate active
name and a full table; place the new column at `position` (default: after
the last active column), shifting active ordinals at or past it; bump
every row's schema_version and the table's; assign the next column id;
sort and rewrite. -/
def add_column (st : CatalogTableState) (tid : Nat) (column : ColumnDefM)
    (position : Option Nat) (maxColumns : Nat) : Except DbError CatalogTableState :=
  if column.constraint.primaryKey then .error .invalidConstraint
  else if st.cols.any (fun e => !e.isDropped && e.column.name == column.name) then
    .error .duplicateColumn
  else
    let activeCount := st.cols.countP (fun e => !e.isDropped)
    if maxColumns ≤ activeCount then .error .invalidConstraint
    else
      let insertPos := position.getD activeCount
      if activeCount < insertPos then .error .invalidConstraint
      else
        let newSV := st.meta.schemaVersion + 1
        let newEntry : ColumnCatalogEntryM :=
          ⟨tid, st.meta.nextColumnId, insertPos, newSV, false, column⟩
        let shifted := st.cols.map (fun e =>
          if !e.isDropped && insertPos ≤ e.ordinalPosition then
            { e with ordinalPosition := e.ordinalPosition + 1, schemaVersion := newSV }
          else { e with schemaVersion := newSV })
        .ok ⟨⟨newSV, newEntry.columnId + 1⟩, sortCols (shifted ++ [newEntry])⟩

/-- The target-finding loop of `drop_column`: the LAST storage-order
active row whose name matches wins (`target_index` is overwritten on
every match). -/
def lastActiveIdx : List ColumnCatalogEntryM → String → Nat → Option Nat
  | [], _, _ => none
  | e :: rest, name, i =>
    match lastActiveIdx rest name (i + 1) with
    | some j => some j
    | none => if !e.isDropped && e.column.name == name then some i else none

/-- In-place mutation of the row at one index. -/
def setAt : List ColumnCatalogEntryM → Nat →
    (ColumnCatalogEntryM → ColumnCatalogEntryM) → List ColumnCatalogEntryM
  | [], _, _ => []
  | e :: rest, 0, f => f e :: rest
  | e :: rest, i + 1, f => e :: setAt rest i f

/-- The `remaining` count of `drop_column`: active rows other than the
target. -/
def countActiveExcept : List ColumnCatalogEntryM → Nat → Nat → Nat
  | [], _, _ => 0
  | e :: rest, tgt, i =>
    (if i = tgt then 0 else if e.isDropped then 0 else 1) + countActiveExcept rest tgt (i + 1)

/-- The renumbering loop of `drop_column`: walk the rows in storage
order, skip the target and dropped rows, and assign dense ordinals
`0, 1, 2, …` to the remaining active rows. -/
def renumber : List ColumnCatalogEntryM → Nat → Nat → Nat → List ColumnCatalogEntryM
  | [], _, _, _ => []
  | e :: rest, i, tgt, ord =>
    if i = tgt then e :: renumber rest (i + 1) tgt ord
    else if e.isDropped then e :: renumber rest (i + 1) tgt ord
    else { e with ordinalPosition := ord } :: renumber rest (i + 1) tgt (ord + 1)

/-- `CatalogManager::drop_column`: find the target (last active name
match), reject a PRIMARY KEY column and the last remaining column; mark
the target dropped with `ORDINAL_DROPPED`, bump every row's
schema_version and the table's, renumber the surviving active ordinals
densely, sort and rewrite. -/
def drop_column (st : CatalogTableState) (columnName : String) :
    Except DbError CatalogTableState :=
  match lastActiveIdx st.cols columnName 0 with
  | none => .error .columnNotFound
  | some tgt =>
    match st.cols[tgt]? with
    | none => .error .internalError
    | some target =>
      if target.column.constraint.primaryKey then .error .invalidConstraint
      else if countActiveExcept st.cols tgt 0 = 0 then .error .invalidConstraint
      else
        let newSV := st.meta.schemaVersion + 1
        let step1 := setAt st.cols tgt (fun e =>
          { e with isDropped := true, schemaVersion := newSV,
                   ordinalPosition := ORDINAL_DROPPED })
        let step2 := step1.map (fun e => { e with schemaVersion := newSV })
        let step3 := renumber step2 0 tgt 0
        .ok ⟨⟨newSV, st.meta.nextColumnId⟩, sortCols step3⟩

theorem ce_asym {a b : ColumnCatalogEntryM} (h : column_entry_less a b = true) :
    column_entry_less b a = false := by
  simp only [column_entry_less] at h ⊢
  split_ifs at h ⊢ <;> simp_all <;> omega

theorem ce_trans {a b c : ColumnCatalogEntryM} (hab : column_entry_less a b = true)
    (hbc : column_entry_less b c = true) : column_entry_less a c = true := by
  simp only [column_entry_less] at hab hbc ⊢
  split_ifs at hab hbc ⊢ <;> simp_all <;> omega

theorem ce_of_active_lt {a b : ColumnCatalogEntryM} (ht : a.tableId = b.tableId)
    (ha : a.isDropped = false) (hb : b.isDropped = false)
    (h : a.ordinalPosition < b.ordinalPosition) : column_entry_less a b = true := by
  simp [column_entry_less, ht, ha, hb, Nat.ne_of_lt h, h]

theorem ce_of_flag {a b : ColumnCatalogEntryM} (ht : a.tableId = b.tableId)
    (ha : a.isDropped = false) (hb : b.isDropped = true) :
    column_entry_less a b = true := by
  simp [column_entry_less, ht, ha, hb]

theorem ce_of_dropped_cid {a b : ColumnCatalogEntryM} (ht : a.tableId = b.tableId)
    (ha : a.isDropped = true) (hb : b.isDropped = true)
    (ho : a.ordinalPosition = b.ordinalPosition) (h : a.columnId < b.columnId) :
    column_entry_less a b = true := by
  simp [column_entry_less, ht, ha, hb, ho, h]

theorem mem_insertSorted {z x : ColumnCatalogEntryM} :
    ∀ {l : List ColumnCatalogEntryM}, z ∈ insertSorted x l ↔ z = x ∨ z ∈ l := by
  intro l
  induction l with
  | nil => simp [insertSorted]
  | cons y ys ih =>
    simp only [insertSorted]
    by_cases h : column_entry_less x y = true
    · rw [if_pos h]; simp
    · rw [if_neg h]
      simp only [List.mem_cons, ih]
      tauto

theorem insertSorted_perm (x : ColumnCatalogEntryM) (l : List ColumnCatalogEntryM) :
    (insertSorted x l).Perm (x :: l) := by
  induction l with
  | nil => rfl
  | cons y ys ih =>
    simp only [insertSorted]
    by_cases h : column_entry_less x y = true
    · rw [if_pos h]
    · rw [if_neg h]
      exact (ih.cons y).trans (List.Perm.swap x y ys)

theorem sortCols_perm (l : List ColumnCatalogEntryM) : (sortCols l).Perm l := by
  induction l with
  | nil => rfl
  | cons x xs ih =>
    exact (insertSorted_perm x (sortCols xs)).trans (ih.cons x)

theorem insertSorted_pairwise {x : ColumnCatalogEntryM} {l : List ColumnCatalogEntryM}
    (hs : l.Pairwise (fun a b => column_entry_less a b = true))
    (htot : ∀ a ∈ l, column_entry_less x a = true ∨ column_entry_less a x = true) :
    (insertSorted x l).Pairwise (fun a b => column_entry_less a b = true) := by
  induction l with
  | nil => simp [insertSorted]
  | cons y ys ih =>
    rw [List.pairwise_cons] at hs
    obtain ⟨hy, hys⟩ := hs
    simp only [insertSorted]
    by_cases h : column_entry_less x y = true
    · rw [if_pos h]
      refine List.Pairwise.cons ?_ (List.Pairwise.cons hy hys)
      intro z hz
      rcases List.mem_cons.mp hz with rfl | hz'
      · exact h
      · exact ce_trans h (hy z hz')
    · rw [if_neg h]
      have hyx : column_entry_less y x = true := by
        rcases htot y (by simp) with h' | h'
        · exact absurd h' h
        · exact h'
      refine List.Pairwise.cons ?_ (ih hys (fun a ha => htot a (by simp [ha])))
      intro z hz
      rcases mem_insertSorted.mp hz with rfl | hz'
      · exact hyx
      · exact hy z hz'

theorem sortCols_pairwise {l : List ColumnCatalogEntryM}
    (htot : l.Pairwise
      (fun a b => column_entry_less a b = true ∨ column_entry_less b a = true)) :
    (sortCols l).Pairwise (fun a b => column_entry_less a b = true) := by
  induction l with
  | nil => simp [sortCols]
  | cons x xs ih =>
    rw [List.pairwise_cons] at htot
    obtain ⟨hx, hxs⟩ := htot
    exact insertSorted_pairwise (ih hxs)
      (fun a ha => hx a ((sortCols_perm xs).mem_iff.mp ha))

theorem eq_of_perm_sortedCE : ∀ {l1 l2 : List ColumnCatalogEntryM}, l1.Perm l2 →
    l1.Pairwise (fun a b => column_entry_less a b = true) →
    l2.Pairwise (fun a b => column_entry_less a b = true) → l1 = l2 := by
  intro l1
  induction l1 with
  | nil =>
    intro l2 hp _ _
    exact hp.nil_eq
  | cons a t1 ih =>
    intro l2 hp h1 h2
    cases l2 with
    | nil => exact absurd hp.eq_nil (by simp)
    | cons b t2 =>
      by_cases hab : a = b
      · subst hab
        rw [ih hp.cons_inv (List.pairwise_cons.mp h1).2 (List.pairwise_cons.mp h2).2]
      · exfalso
        have ha2 : a ∈ b :: t2 := hp.mem_iff.mp (by simp)
        have hb1 : b ∈ a :: t1 := hp.mem_iff.mpr (by simp)
        have ha2' : a ∈ t2 := by
          rcases List.mem_cons.mp ha2 with h | h
          · exact absurd h hab
          · exact h
        have hb1' : b ∈ t1 := by
          rcases List.mem_cons.mp hb1 with h | h
          · exact absurd h.symm hab
          · exact h
        have hba : column_entry_less b a = true := (List.pairwise_cons.mp h2).1 a ha2'
        have hab' : column_entry_less a b = true := (List.pairwise_cons.mp h1).1 b hb1'
        rw [ce_asym hab'] at hba
        exact absurd hba (by simp)

theorem sortCols_eq_of_perm_sorted {l t : List ColumnCatalogEntryM}
    (hp : l.Perm t) (ht : t.Pairwise (fun a b => column_entry_less a b = true)) :
    sortCols l = t := by
  have hR : Symmetric (fun a b : ColumnCatalogEntryM =>
      column_entry_less a b = true ∨ column_entry_less b a = true) :=
    fun _ _ h => Or.symm h
  have htot := (List.Perm.pairwise_iff @hR hp).mpr (ht.imp (fun h => Or.inl h))
  exact eq_of_perm_sortedCE ((sortCols_perm l).trans hp) (sortCols_pairwise htot) ht

theorem countActiveExcept_dropped :
    ∀ (D : List ColumnCatalogEntryM) (tgt i : Nat),
    (∀ e ∈ D, e.isDropped = true) → countActiveExcept D tgt i = 0 := by
  intro D
  induction D with
  | nil => intro tgt i _; rfl
  | cons e rest ih =>
    intro tgt i hD
    simp only [countActiveExcept]
    rw [ih tgt (i + 1) (fun a ha => hD a (by simp [ha]))]
    by_cases h : i = tgt
    · simp [h]
    · simp [h, hD e (by simp)]

theorem countActiveExcept_eq {x : ColumnCatalogEntryM} :
    ∀ (A : List ColumnCatalogEntryM) (D : List ColumnCatalogEntryM) (i tgt : Nat),
    tgt = i + A.length →
    (∀ e ∈ A, e.isDropped = false) → (∀ e ∈ D, e.isDropped = true) →
    countActiveExcept (A ++ x :: D) tgt i = A.length := by
  intro A
  induction A with
  | nil =>
    intro D i tgt htgt _ hD
    have ht : i = tgt := by simpa using htgt.symm
    simp only [List.nil_append, countActiveExcept]
    rw [if_pos ht, countActiveExcept_dropped D tgt (i + 1) hD]
    simp
  | cons e rest ih =>
    intro D i tgt htgt hA hD
    simp only [List.cons_append, countActiveExcept, List.length_cons, List.append_eq]
    rw [if_neg (by simp only [List.length_cons] at htgt; omega),
      if_neg (by simp [hA e (by simp)])]
    rw [ih D (i + 1) tgt (by simp only [List.length_cons] at htgt; omega)
      (fun a ha => hA a (by simp [ha])) hD]
    omega

theorem setAt_append (A D : List ColumnCatalogEntryM) (x : ColumnCatalogEntryM)
    (f : ColumnCatalogEntryM → ColumnCatalogEntryM) :
    setAt (A ++ x :: D) A.length f = A ++ f x :: D := by
  induction A with
  | nil => rfl
  | cons e rest ih =>
    simp only [List.cons_append, List.length_cons, setAt, List.append_eq]
    rw [ih]

theorem renumber_dropped :
    ∀ (D : List ColumnCatalogEntryM) (i tgt ord : Nat),
    (∀ e ∈ D, e.isDropped = true) → renumber D i tgt ord = D := by
  intro D
  induction D with
  | nil => intro i tgt ord _; rfl
  | cons e rest ih =>
    intro i tgt ord hD
    simp only [renumber]
    by_cases h : i = tgt
    · rw [if_pos h, ih (i + 1) tgt ord (fun a ha => hD a (by simp [ha]))]
    · rw [if_neg h, if_pos (hD e (by simp)), ih (i + 1) tgt ord
        (fun a ha => hD a (by simp [ha]))]

/-- The dense reassignment the renumbering loop performs on an all-active
block. -/
def assignSeq : List ColumnCatalogEntryM → Nat → List ColumnCatalogEntryM
  | [], _ => []
  | e :: r, o => { e with ordinalPosition := o } :: assignSeq r (o + 1)

theorem renumber_split :
    ∀ (A : List ColumnCatalogEntryM) (x : ColumnCatalogEntryM)
      (D : List ColumnCatalogEntryM) (i tgt ord : Nat),
    tgt = i + A.length →
    (∀ e ∈ A, e.isDropped = false) → (∀ e ∈ D, e.isDropped = true) →
    renumber (A ++ x :: D) i tgt ord = assignSeq A ord ++ x :: D := by
  intro A
  induction A with
  | nil =>
    intro x D i tgt ord htgt _ hD
    have ht : i = tgt := by simpa using htgt.symm
    simp only [List.nil_append, renumber, assignSeq]
    rw [if_pos ht, renumber_dropped D (i + 1) tgt ord hD]
  | cons e rest ih =>
    intro x D i tgt ord htgt hA hD
    simp only [List.cons_append, renumber, assignSeq, List.append_eq]
    rw [if_neg (by simp only [List.length_cons] at htgt; omega),
      if_neg (by simp [hA e (by simp)])]
    rw [ih x D (i + 1) tgt (ord + 1) (by simp only [List.length_cons] at htgt; omega)
      (fun a ha => hA a (by simp [ha])) hD]

theorem assignSeq_id :
    ∀ (A : List ColumnCatalogEntryM) (o : Nat),
    A.map (fun e => e.ordinalPosition) = List.range' o A.length → assignSeq A o = A := by
  intro A
  induction A with
  | nil => intro o _; rfl
  | cons e rest ih =>
    intro o h
    simp only [List.map_cons, List.length_cons, List.range'_succ, List.cons_eq_cons] at h
    simp only [assignSeq]
    rw [ih (o + 1) h.2, ← h.1]

theorem getElem_append_mid (A D : List ColumnCatalogEntryM) (x : ColumnCatalogEntryM) :
    (A ++ x :: D)[A.length]? = some x := by
  induction A with
  | nil => simp
  | cons e rest ih =>
    simp only [List.cons_append, List.length_cons, List.getElem?_cons_succ]
    exact ih

theorem lastActiveIdx_none :
    ∀ (l : List ColumnCatalogEntryM) (name : String) (i : Nat),
    (∀ e ∈ l, (!e.isDropped && e.column.name == name) = false) →
    lastActiveIdx l name i = none := by
  intro l
  induction l with
  | nil => intro name i _; rfl
  | cons e rest ih =>
    intro name i h
    simp only [lastActiveIdx]
    rw [ih name (i + 1) (fun a ha => h a (by simp [ha]))]
    simp [h e (by simp)]

theorem lastActiveIdx_target {name : String} :
    ∀ (A : List ColumnCatalogEntryM) {x : ColumnCatalogEntryM}
      (D : List ColumnCatalogEntryM) (i j : Nat),
    j = i + A.length →
    (∀ e ∈ A, (!e.isDropped && e.column.name == name) = false) →
    (∀ e ∈ D, (!e.isDropped && e.column.name == name) = false) →
    (!x.isDropped && x.column.name == name) = true →
    lastActiveIdx (A ++ x :: D) name i = some j := by
  intro A
  induction A with
  | nil =>
    intro x D i j hj _ hD hx
    have hj' : j = i := by simpa using hj
    simp only [List.nil_append, lastActiveIdx]
    rw [lastActiveIdx_none D name (i + 1) hD]
    simp [hx, hj']
  | cons e rest ih =>
    intro x D i j hj hA hD hx
    simp only [List.cons_append, lastActiveIdx, List.append_eq]
    rw [ih D (i + 1) j (by simp only [List.length_cons] at hj; omega)
      (fun a ha => hA a (by simp [ha])) hD hx]

/-- The schema_version bump applied to every row of the table by both
operations. -/
def bumpSV (v : Nat) (e : ColumnCatalogEntryM) : ColumnCatalogEntryM :=
  { e with schemaVersion := v }

@[simp] theorem bumpSV_tableId (v : Nat) (e : ColumnCatalogEntryM) :
    (bumpSV v e).tableId = e.tableId := rfl

@[simp] theorem bumpSV_columnId (v : Nat) (e : ColumnCatalogEntryM) :
    (bumpSV v e).columnId = e.columnId := rfl

@[simp] theorem bumpSV_ordinal (v : Nat) (e : ColumnCatalogEntryM) :
    (bumpSV v e).ordinalPosition = e.ordinalPosition := rfl

@[simp] theorem bumpSV_isDropped (v : Nat) (e : ColumnCatalogEntryM) :
    (bumpSV v e).isDropped = e.isDropped := rfl

@[simp] theorem bumpSV_column (v : Nat) (e : ColumnCatalogEntryM) :
    (bumpSV v e).column = e.column := rfl

theorem pairwise_ord_of_range {acts : List ColumnCatalogEntryM}
    (h5 : acts.map (fun e => e.ordinalPosition) = List.range acts.length) :
    acts.Pairwise (fun a b => a.ordinalPosition < b.ordinalPosition) := by
  have h := List.pairwise_lt_range acts.length
  rw [← h5] at h
  exact List.pairwise_map.mp h

theorem ordlt_of_range {acts : List ColumnCatalogEntryM}
    (h5 : acts.map (fun e => e.ordinalPosition) = List.range acts.length) :
    ∀ e ∈ acts, e.ordinalPosition < acts.length := by
  intro e he
  have hm : e.ordinalPosition ∈ acts.map (fun e => e.ordinalPosition) :=
    List.mem_map_of_mem _ he
  rw [h5] at hm
  exact List.mem_range.mp hm

theorem pairwise_actives {tid v : Nat} {acts : List ColumnCatalogEntryM}
    (h1a : ∀ e ∈ acts, e.tableId = tid) (h2 : ∀ e ∈ acts, e.isDropped = false)
    (hord : acts.Pairwise (fun a b => a.ordinalPosition < b.ordinalPosition)) :
    (acts.map (bumpSV v)).Pairwise (fun a b => column_entry_less a b = true) := by
  rw [List.pairwise_map]
  refine List.Pairwise.imp_of_mem ?_ hord
  intro a b ha hb hab
  exact ce_of_active_lt (by simp [h1a a ha, h1a b hb]) (by simp [h2 a ha])
    (by simp [h2 b hb]) (by simpa using hab)

theorem pairwise_droppeds {tid v : Nat} {drs : List ColumnCatalogEntryM}
    (h1d : ∀ e ∈ drs, e.tableId = tid) (h3 : ∀ e ∈ drs, e.isDropped = true)
    (h4 : ∀ e ∈ drs, e.ordinalPosition = ORDINAL_DROPPED)
    (h6 : (drs.map (fun e => e.columnId)).Pairwise (fun a b => a < b)) :
    (drs.map (bumpSV v)).Pairwise (fun a b => column_entry_less a b = true) := by
  rw [List.pairwise_map]
  rw [List.pairwise_map] at h6
  refine List.Pairwise.imp_of_mem ?_ h6
  intro a b ha hb hab
  exact ce_of_dropped_cid (by simp [h1d a ha, h1d b hb]) (by simp [h3 a ha])
    (by simp [h3 b hb]) (by simp [h4 a ha, h4 b hb]) (by simpa using hab)

theorem add_column_trace
    (tid maxCols : Nat) (meta : TableMetaM) (acts drs : List ColumnCatalogEntryM)
    (col : ColumnDefM)
    (h1a : ∀ e ∈ acts, e.tableId = tid) (h1d : ∀ e ∈ drs, e.tableId = tid)
    (h2 : ∀ e ∈ acts, e.isDropped = false)
    (h3 : ∀ e ∈ drs, e.isDropped = true)
    (h4 : ∀ e ∈ drs, e.ordinalPosition = ORDINAL_DROPPED)
    (h5 : acts.map (fun e => e.ordinalPosition) = List.range acts.length)
    (h6 : (drs.map (fun e => e.columnId)).Pairwise (fun a b => a < b))
    (hname : ∀ e ∈ acts, ¬ e.column.name = col.name)
    (hpk : col.constraint.primaryKey = false)
    (h10 : acts.length < maxCols) :
    add_column ⟨meta, acts ++ drs⟩ tid col none maxCols =
      .ok ⟨⟨meta.schemaVersion + 1, meta.nextColumnId + 1⟩,
        acts.map (bumpSV (meta.schemaVersion + 1)) ++
          (⟨tid, meta.nextColumnId, acts.length, meta.schemaVersion + 1, false, col⟩ :
            ColumnCatalogEntryM) ::
          drs.map (bumpSV (meta.schemaVersion + 1))⟩ := by
  have hordlt := ordlt_of_range h5
  have hany : (acts ++ drs).any
      (fun e => !e.isDropped && e.column.name == col.name) = false := by
    rw [List.any_eq_false]
    intro e he
    rcases List.mem_append.mp he with h | h
    · simp [h2 e h, hname e h]
    · simp [h3 e h]
  have hcount : (acts ++ drs).countP (fun e => !e.isDropped) = acts.length := by
    rw [List.countP_append,
      List.countP_eq_length.mpr (fun e he => by simp [h2 e he]),
      List.countP_eq_zero.mpr (fun e he => by simp [h3 e he])]
    omega
  simp only [add_column, hcount, Option.getD_none]
  rw [if_neg (by simp [hpk]), if_neg (by simp [hany]), if_neg (by omega),
    if_neg (by omega)]
  have hshift : (acts ++ drs).map (fun e =>
      if !e.isDropped && acts.length ≤ e.ordinalPosition then
        { e with ordinalPosition := e.ordinalPosition + 1,
                 schemaVersion := meta.schemaVersion + 1 }
      else { e with schemaVersion := meta.schemaVersion + 1 }) =
      acts.map (bumpSV (meta.schemaVersion + 1)) ++
        drs.map (bumpSV (meta.schemaVersion + 1)) := by
    rw [List.map_append]
    congr 1
    · refine List.map_congr_left ?_
      intro e he
      have ha := h2 e he
      have hn : ¬ acts.length ≤ e.ordinalPosition := by
        have := hordlt e he
        omega
      simp [ha, hn, bumpSV]
    · refine List.map_congr_left ?_
      intro e he
      simp [h3 e he, bumpSV]
  rw [hshift]
  have hperm : ((acts.map (bumpSV (meta.schemaVersion + 1)) ++
      drs.map (bumpSV (meta.schemaVersion + 1))) ++
      [(⟨tid, meta.nextColumnId, acts.length, meta.schemaVersion + 1, false, col⟩ :
        ColumnCatalogEntryM)]).Perm
      (acts.map (bumpSV (meta.schemaVersion + 1)) ++
        (⟨tid, meta.nextColumnId, acts.length, meta.schemaVersion + 1, false, col⟩ :
          ColumnCatalogEntryM) ::
        drs.map (bumpSV (meta.schemaVersion + 1))) := by
    rw [List.append_assoc]
    exact List.Perm.append_left _ (List.perm_append_singleton _ _)
  have hsorted : (acts.map (bumpSV (meta.schemaVersion + 1)) ++
      (⟨tid, meta.nextColumnId, acts.length, meta.schemaVersion + 1, false, col⟩ :
        ColumnCatalogEntryM) ::
      drs.map (bumpSV (meta.schemaVersion + 1))).Pairwise
      (fun a b => column_entry_less a b = true) := by
    rw [List.pairwise_append]
    refine ⟨pairwise_actives h1a h2 (pairwise_ord_of_range h5), ?_, ?_⟩
    · rw [List.pairwise_cons]
      refine ⟨?_, pairwise_droppeds h1d h3 h4 h6⟩
      intro d hd
      obtain ⟨d0, hd0, rfl⟩ := List.mem_map.mp hd
      exact ce_of_flag (by simp [h1d d0 hd0]) (by simp) (by simp [h3 d0 hd0])
    · intro a ha b hb
      obtain ⟨a0, ha0, rfl⟩ := List.mem_map.mp ha
      rcases List.mem_cons.mp hb with rfl | hb'
      · exact ce_of_active_lt (by simp [h1a a0 ha0]) (by simp [h2 a0 ha0])
          (by simp) (by simpa using hordlt a0 ha0)
      · obtain ⟨b0, hb0, rfl⟩ := List.mem_map.mp hb'
        exact ce_of_flag (by simp [h1a a0 ha0, h1d b0 hb0]) (by simp [h2 a0 ha0])
          (by simp [h3 b0 hb0])
  rw [sortCols_eq_of_perm_sorted hperm hsorted]

theorem drop_column_trace
    (tid : Nat) (meta : TableMetaM) (acts drs : List ColumnCatalogEntryM)
    (col : ColumnDefM)
    (h1a : ∀ e ∈ acts, e.tableId = tid) (h1d : ∀ e ∈ drs, e.tableId = tid)
    (h2 : ∀ e ∈ acts, e.isDropped = false)
    (h3 : ∀ e ∈ drs, e.isDropped = true)
    (h4 : ∀ e ∈ drs, e.ordinalPosition = ORDINAL_DROPPED)
    (h5 : acts.map (fun e => e.ordinalPosition) = List.range acts.length)
    (h6 : (drs.map (fun e => e.columnId)).Pairwise (fun a b => a < b))
    (h7d : ∀ e ∈ drs, e.columnId < meta.nextColumnId)
    (hname : ∀ e ∈ acts, ¬ e.column.name = col.name)
    (hpk : col.constraint.primaryKey = false)
    (h11 : acts ≠ []) :
    drop_column ⟨⟨meta.schemaVersion + 1, meta.nextColumnId + 1⟩,
        acts.map (bumpSV (meta.schemaVersion + 1)) ++
          (⟨tid, meta.nextColumnId, acts.length, meta.schemaVersion + 1, false, col⟩ :
            ColumnCatalogEntryM) ::
          drs.map (bumpSV (meta.schemaVersion + 1))⟩ col.name =
      .ok ⟨⟨meta.schemaVersion + 1 + 1, meta.nextColumnId + 1⟩,
        acts.map (bumpSV (meta.schemaVersion + 1 + 1)) ++
          drs.map (bumpSV (meta.schemaVersion + 1 + 1)) ++
          [(⟨tid, meta.nextColumnId, ORDINAL_DROPPED, meta.schemaVersion + 1 + 1,
            true, col⟩ : ColumnCatalogEntryM)]⟩ := by
  have hlenA : (acts.map (bumpSV (meta.schemaVersion + 1))).length = acts.length :=
    List.length_map acts _
  have hfind : lastActiveIdx
      (acts.map (bumpSV (meta.schemaVersion + 1)) ++
        (⟨tid, meta.nextColumnId, acts.length, meta.schemaVersion + 1, false, col⟩ :
          ColumnCatalogEntryM) ::
        drs.map (bumpSV (meta.schemaVersion + 1))) col.name 0 =
      some (acts.map (bumpSV (meta.schemaVersion + 1))).length := by
    refine lastActiveIdx_target _ _ 0 _ (by omega) ?_ ?_ (by simp)
    · intro e he
      obtain ⟨e0, he0, rfl⟩ := List.mem_map.mp he
      simp [h2 e0 he0, hname e0 he0]
    · intro e he
      obtain ⟨e0, he0, rfl⟩ := List.mem_map.mp he
      simp [h3 e0 he0]
  have hcnt : countActiveExcept
      (acts.map (bumpSV (meta.schemaVersion + 1)) ++
        (⟨tid, meta.nextColumnId, acts.length, meta.schemaVersion + 1, false, col⟩ :
          ColumnCatalogEntryM) ::
        drs.map (bumpSV (meta.schemaVersion + 1)))
      (acts.map (bumpSV (meta.schemaVersion + 1))).length 0 =
      (acts.map (bumpSV (meta.schemaVersion + 1))).length := by
    refine countActiveExcept_eq _ _ 0 _ (by omega) ?_ ?_
    · intro e he
      obtain ⟨e0, he0, rfl⟩ := List.mem_map.mp he
      simp [h2 e0 he0]
    · intro e he
      obtain ⟨e0, he0, rfl⟩ := List.mem_map.mp he
      simp [h3 e0 he0]
  have hlen0 : ¬ (acts.map (bumpSV (meta.schemaVersion + 1))).length = 0 := by
    rw [hlenA]
    simpa using fun h => h11 (List.length_eq_zero.mp h)
  simp only [drop_column, hfind, getElem_append_mid]
  rw [if_neg (by simp [hpk]), hcnt, if_neg hlen0, setAt_append]
  have hstep2 : (acts.map (bumpSV (meta.schemaVersion + 1)) ++
      (⟨tid, meta.nextColumnId, ORDINAL_DROPPED, meta.schemaVersion + 1 + 1, true, col⟩ :
        ColumnCatalogEntryM) ::
      drs.map (bumpSV (meta.schemaVersion + 1))).map
        (fun e => { e with schemaVersion := meta.schemaVersion + 1 + 1 }) =
      acts.map (bumpSV (meta.schemaVersion + 1 + 1)) ++
        (⟨tid, meta.nextColumnId, ORDINAL_DROPPED, meta.schemaVersion + 1 + 1, true, col⟩ :
          ColumnCatalogEntryM) ::
        drs.map (bumpSV (meta.schemaVersion + 1 + 1)) := by
    rw [List.map_append, List.map_cons, List.map_map, List.map_map]
    rfl
  rw [hstep2]
  have hsplit : renumber
      (acts.map (bumpSV (meta.schemaVersion + 1 + 1)) ++
        (⟨tid, meta.nextColumnId, ORDINAL_DROPPED, meta.schemaVersion + 1 + 1, true, col⟩ :
          ColumnCatalogEntryM) ::
        drs.map (bumpSV (meta.schemaVersion + 1 + 1))) 0
      (acts.map (bumpSV (meta.schemaVersion + 1))).length 0 =
      assignSeq (acts.map (bumpSV (meta.schemaVersion + 1 + 1))) 0 ++
        (⟨tid, meta.nextColumnId, ORDINAL_DROPPED, meta.schemaVersion + 1 + 1, true, col⟩ :
          ColumnCatalogEntryM) ::
        drs.map (bumpSV (meta.schemaVersion + 1 + 1)) := by
    refine renumber_split _ _ _ 0 _ 0 (by simp) ?_ ?_
    · intro e he
      obtain ⟨e0, he0, rfl⟩ := List.mem_map.mp he
      simp [h2 e0 he0]
    · intro e he
      obtain ⟨e0, he0, rfl⟩ := List.mem_map.mp he
      simp [h3 e0 he0]
  rw [hsplit]
  have hassign : assignSeq (acts.map (bumpSV (meta.schemaVersion + 1 + 1))) 0 =
      acts.map (bumpSV (meta.schemaVersion + 1 + 1)) := by
    refine assignSeq_id _ 0 ?_
    rw [List.map_map]
    have hm : (acts.map ((fun e => e.ordinalPosition) ∘ bumpSV (meta.schemaVersion + 1 + 1))) =
        acts.map (fun e => e.ordinalPosition) := List.map_congr_left (fun e _ => rfl)
    rw [hm, h5, List.length_map, List.range_eq_range']
  rw [hassign]
  have hperm : (acts.map (bumpSV (meta.schemaVersion + 1 + 1)) ++
      (⟨tid, meta.nextColumnId, ORDINAL_DROPPED, meta.schemaVersion + 1 + 1, true, col⟩ :
        ColumnCatalogEntryM) ::
      drs.map (bumpSV (meta.schemaVersion + 1 + 1))).Perm
      (acts.map (bumpSV (meta.schemaVersion + 1 + 1)) ++
        drs.map (bumpSV (meta.schemaVersion + 1 + 1)) ++
        [(⟨tid, meta.nextColumnId, ORDINAL_DROPPED, meta.schemaVersion + 1 + 1,
          true, col⟩ : ColumnCatalogEntryM)]) := by
    rw [List.append_assoc]
    exact List.Perm.append_left _ (List.perm_append_singleton _ _).symm
  have hsorted : (acts.map (bumpSV (meta.schemaVersion + 1 + 1)) ++
      drs.map (bumpSV (meta.schemaVersion + 1 + 1)) ++
      [(⟨tid, meta.nextColumnId, ORDINAL_DROPPED, meta.schemaVersion + 1 + 1,
        true, col⟩ : ColumnCatalogEntryM)]).Pairwise
      (fun a b => column_entry_less a b = true) := by
    rw [List.pairwise_append, List.pairwise_append]
    refine ⟨⟨pairwise_actives h1a h2 (pairwise_ord_of_range h5),
      pairwise_droppeds h1d h3 h4 h6, ?_⟩, by simp, ?_⟩
    · intro a ha b hb
      obtain ⟨a0, ha0, rfl⟩ := List.mem_map.mp ha
      obtain ⟨b0, hb0, rfl⟩ := List.mem_map.mp hb
      exact ce_of_flag (by simp [h1a a0 ha0, h1d b0 hb0]) (by simp [h2 a0 ha0])
        (by simp [h3 b0 hb0])
    · intro a ha b hb
      rcases List.mem_append.mp ha with ha' | ha'
      · obtain ⟨a0, ha0, rfl⟩ := List.mem_map.mp ha'
        rcases List.mem_singleton.mp hb with rfl
        exact ce_of_flag (by simp [h1a a0 ha0]) (by simp [h2 a0 ha0]) (by simp)
      · obtain ⟨a0, ha0, rfl⟩ := List.mem_map.mp ha'
        rcases List.mem_singleton.mp hb with rfl
        exact ce_of_dropped_cid (by simp [h1d a0 ha0]) (by simp [h3 a0 ha0]) (by simp)
          (by simp [h4 a0 ha0, ORDINAL_DROPPED]) (by simpa using h7d a0 ha0)
  rw [sortCols_eq_of_perm_sorted hperm hsorted]

theorem add_column_mono (st : CatalogTableState) (t : Nat) (c : ColumnDefM)
    (pos : Option Nat) (m : Nat) (st' : CatalogTableState)
    (h : add_column st t c pos m = .ok st') :
    st.meta.schemaVersion < st'.meta.schemaVersion := by
  simp only [add_column] at h
  split_ifs at h
  first
    | exact Except.noConfusion h
    | (injection h with h2
       rw [← h2]
       show st.meta.schemaVersion < st.meta.schemaVersion + 1
       omega)

theorem drop_column_mono (st : CatalogTableState) (n : String)
    (st' : CatalogTableState) (h : drop_column st n = .ok st') :
    st.meta.schemaVersion < st'.meta.schemaVersion := by
  simp only [drop_column] at h
  split at h
  · exact Except.noConfusion h
  · split at h
    · exact Except.noConfusion h
    · split_ifs at h
      first
        | exact Except.noConfusion h
        | (injection h with h2
           rw [← h2]
           show st.meta.schemaVersion < st.meta.schemaVersion + 1
           omega)

theorem pairwise_actives_base {tid : Nat} {acts : List ColumnCatalogEntryM}
    (h1a : ∀ e ∈ acts, e.tableId = tid) (h2 : ∀ e ∈ acts, e.isDropped = false)
    (hord : acts.Pairwise (fun a b => a.ordinalPosition < b.ordinalPosition)) :
    acts.Pairwise (fun a b => column_entry_less a b = true) := by
  refine List.Pairwise.imp_of_mem ?_ hord
  intro a b ha hb hab
  exact ce_of_active_lt (by rw [h1a a ha, h1a b hb]) (h2 a ha) (h2 b hb) hab

theorem pairwise_droppeds_base {tid : Nat} {drs : List ColumnCatalogEntryM}
    (h1d : ∀ e ∈ drs, e.tableId = tid) (h3 : ∀ e ∈ drs, e.isDropped = true)
    (h4 : ∀ e ∈ drs, e.ordinalPosition = ORDINAL_DROPPED)
    (h6 : (drs.map (fun e => e.columnId)).Pairwise (fun a b => a < b)) :
    drs.Pairwise (fun a b => column_entry_less a b = true) := by
  rw [List.pairwise_map] at h6
  refine List.Pairwise.imp_of_mem ?_ h6
  intro a b ha hb hab
  exact ce_of_dropped_cid (by rw [h1d a ha, h1d b hb]) (h3 a ha) (h3 b hb)
    (by rw [h4 a ha, h4 b hb]) hab

theorem activeTriples_mk (m : TableMetaM) (cols : List ColumnCatalogEntryM)
    (hsorted : cols.Pairwise (fun a b => column_entry_less a b = true)) :
    activeTriples ⟨m, cols⟩ = (cols.filter (fun e => !e.isDropped)).map
      (fun e => (e.column.name, e.column.type, e.ordinalPosition)) := by
  have h1 : activeTriples ⟨m, cols⟩ =
      ((sortCols cols).filter (fun e => !e.isDropped)).map
        (fun e => (e.column.name, e.column.type, e.ordinalPosition)) := rfl
  rw [h1, sortCols_eq_of_perm_sorted (List.Perm.refl _) hsorted]

/-- Claim C7: on a well-formed table slice of the column catalog (all
rows of the table; active rows ordered with dense ordinals `0..k-1`;
dropped rows carrying `ORDINAL_DROPPED` and increasing column ids below
`next_column_id`; a non-PRIMARY-KEY new column whose name is not an
active name; at least one existing active column and room under the
column limit), every successful `add_column` and every successful
`drop_column` strictly increases the table's schema_version, and
`add_column(col)` followed by `drop_column(col.name)` succeeds and
restores the original effective active column list — the same names,
types and dense ordinal positions, in the same order. -/
theorem C7_add_drop_roundtrip
    (tid maxCols : Nat) (meta : TableMetaM) (acts drs : List ColumnCatalogEntryM)
    (col : ColumnDefM)
    (h1a : ∀ e ∈ acts, e.tableId = tid) (h1d : ∀ e ∈ drs, e.tableId = tid)
    (h2 : ∀ e ∈ acts, e.isDropped = false)
    (h3 : ∀ e ∈ drs, e.isDropped = true)
    (h4 : ∀ e ∈ drs, e.ordinalPosition = ORDINAL_DROPPED)
    (h5 : acts.map (fun e => e.ordinalPosition) = List.range acts.length)
    (h6 : (drs.map (fun e => e.columnId)).Pairwise (fun a b => a < b))
    (h7d : ∀ e ∈ drs, e.columnId < meta.nextColumnId)
    (hname : ∀ e ∈ acts, ¬ e.column.name = col.name)
    (hpk : col.constraint.primaryKey = false)
    (h10 : acts.length < maxCols)
    (h11 : acts ≠ []) :
    (∀ (st : CatalogTableState) (t : Nat) (c : ColumnDefM) (pos : Option Nat)
        (m : Nat) (st' : CatalogTableState),
        add_column st t c pos m = .ok st' →
        st.meta.schemaVersion < st'.meta.schemaVersion) ∧
    (∀ (st : CatalogTableState) (n : String) (st' : CatalogTableState),
        drop_column st n = .ok st' →
        st.meta.schemaVersion < st'.meta.schemaVersion) ∧
    ∃ st1 st2 : CatalogTableState,
      add_column ⟨meta, acts ++ drs⟩ tid col none maxCols = .ok st1 ∧
      drop_column st1 col.name = .ok st2 ∧
      st1.meta.schemaVersion = meta.schemaVersion + 1 ∧
      st2.meta.schemaVersion = meta.schemaVersion + 2 ∧
      activeTriples st2 = activeTriples ⟨meta, acts ++ drs⟩ := by
  refine ⟨add_column_mono, drop_column_mono, ?_⟩
  refine ⟨_, _,
    add_column_trace tid maxCols meta acts drs col h1a h1d h2 h3 h4 h5 h6 hname hpk h10,
    drop_column_trace tid meta acts drs col h1a h1d h2 h3 h4 h5 h6 h7d hname hpk h11,
    rfl, ?_, ?_⟩
  · show meta.schemaVersion + 1 + 1 = meta.schemaVersion + 2
    omega
  · have hsorted2 : ((acts.map (bumpSV (meta.schemaVersion + 1 + 1)) ++
        drs.map (bumpSV (meta.schemaVersion + 1 + 1)) ++
        [(⟨tid, meta.nextColumnId, ORDINAL_DROPPED, meta.schemaVersion + 1 + 1,
          true, col⟩ : ColumnCatalogEntryM)]) :
          List ColumnCatalogEntryM).Pairwise
          (fun a b => column_entry_less a b = true) := by
      rw [List.pairwise_append, List.pairwise_append]
      refine ⟨⟨pairwise_actives h1a h2 (pairwise_ord_of_range h5),
        pairwise_droppeds h1d h3 h4 h6, ?_⟩, by simp, ?_⟩
      · intro a ha b hb
        obtain ⟨a0, ha0, rfl⟩ := List.mem_map.mp ha
        obtain ⟨b0, hb0, rfl⟩ := List.mem_map.mp hb
        exact ce_of_flag (by simp [h1a a0 ha0, h1d b0 hb0]) (by simp [h2 a0 ha0])
          (by simp [h3 b0 hb0])
      · intro a ha b hb
        rcases List.mem_append.mp ha with ha' | ha'
        · obtain ⟨a0, ha0, rfl⟩ := List.mem_map.mp ha'
          rcases List.mem_singleton.mp hb with rfl
          exact ce_of_flag (by simp [h1a a0 ha0]) (by simp [h2 a0 ha0]) (by simp)
        · obtain ⟨a0, ha0, rfl⟩ := List.mem_map.mp ha'
          rcases List.mem_singleton.mp hb with rfl
          exact ce_of_dropped_cid (by simp [h1d a0 ha0]) (by simp [h3 a0 ha0])
            (by simp) (by simp [h4 a0 ha0, ORDINAL_DROPPED])
            (by simpa using h7d a0 ha0)
    have hsorted0 : ((acts ++ drs) : List ColumnCatalogEntryM).Pairwise
        (fun a b => column_entry_less a b = true) := by
      rw [List.pairwise_append]
      refine ⟨pairwise_actives_base h1a h2 (pairwise_ord_of_range h5),
        pairwise_droppeds_base h1d h3 h4 h6, ?_⟩
      intro a ha b hb
      exact ce_of_flag (by rw [h1a a ha, h1d b hb]) (h2 a ha) (h3 b hb)
    rw [activeTriples_mk _ _ hsorted2, activeTriples_mk _ _ hsorted0]
    have hA2 : (acts.map (bumpSV (meta.schemaVersion + 1 + 1))).filter
        (fun e => !e.isDropped) = acts.map (bumpSV (meta.schemaVersion + 1 + 1)) := by
      rw [List.filter_eq_self]
      intro a ha
      obtain ⟨a0, ha0, rfl⟩ := List.mem_map.mp ha
      simp [h2 a0 ha0]
    have hD2 : (drs.map (bumpSV (meta.schemaVersion + 1 + 1))).filter
        (fun e => !e.isDropped) = [] := by
      rw [List.filter_eq_nil_iff]
      intro a ha
      obtain ⟨a0, ha0, rfl⟩ := List.mem_map.mp ha
      simp [h3 a0 ha0]
    have hActs : acts.filter (fun e => !e.isDropped) = acts := by
      rw [List.filter_eq_self]
      intro a ha
      simp [h2 a ha]
    have hDrs : drs.filter (fun e => !e.isDropped) = [] := by
      rw [List.filter_eq_nil_iff]
      intro a ha
      simp [h3 a ha]
    rw [List.filter_append, List.filter_append, List.filter_append, hA2, hD2, hActs,
      hDrs]
    simp only [List.append_nil]
    have hmarked : List.filter (fun e => !e.isDropped)
        [(⟨tid, meta.nextColumnId, ORDINAL_DROPPED, meta.schemaVersion + 1 + 1,
          true, col⟩ : ColumnCatalogEntryM)] = [] := by
      simp
    rw [hmarked]
    simp only [List.append_nil, List.map_map]
    exact List.map_congr_left (fun e _ => rfl)

/-- C7 witness data: one active PRIMARY KEY column `id` at ordinal 0, one
previously dropped column row, schema_version 3, next column id 10. -/
def c7Acts : List ColumnCatalogEntryM :=
  [⟨1, 1, 0, 3, false, ⟨"id", .integer, 0, ⟨true, true, true, false, ""⟩⟩⟩]

/-- C7 witness dropped rows. -/
def c7Drs : List ColumnCatalogEntryM :=
  [⟨1, 2, ORDINAL_DROPPED, 2, true, ⟨"old", .integer, 0,
    ⟨false, false, false, false, ""⟩⟩⟩]

/-- The column added and then dropped in the C7 witness. -/
def c7Col : ColumnDefM := ⟨"age", .integer, 0, ⟨false, false, false, false, ""⟩⟩

/-- C7 witness table metadata. -/
def c7Meta : TableMetaM := ⟨3, 10⟩

/-- Witness for C7 at the concrete one-column table: the round trip
succeeds, bumps schema_version from 3 to 4 to 5, and restores the
effective active column list. -/
theorem C7_add_drop_roundtrip_witness :
    (∀ (st : CatalogTableState) (t : Nat) (c : ColumnDefM) (pos : Option Nat)
        (m : Nat) (st' : CatalogTableState),
        add_column st t c pos m = .ok st' →
        st.meta.schemaVersion < st'.meta.schemaVersion) ∧
    (∀ (st : CatalogTableState) (n : String) (st' : CatalogTableState),
        drop_column st n = .ok st' →
        st.meta.schemaVersion < st'.meta.schemaVersion) ∧
    ∃ st1 st2 : CatalogTableState,
      add_column ⟨c7Meta, c7Acts ++ c7Drs⟩ 1 c7Col none 16 = .ok st1 ∧
      drop_column st1 c7Col.name = .ok st2 ∧
      st1.meta.schemaVersion = c7Meta.schemaVersion + 1 ∧
      st2.meta.schemaVersion = c7Meta.schemaVersion + 2 ∧
      activeTriples st2 = activeTriples ⟨c7Meta, c7Acts ++ c7Drs⟩ :=
  C7_add_drop_roundtrip 1 16 c7Meta c7Acts c7Drs c7Col
    (by decide) (by decide) (by decide) (by decide) (by decide) (by decide)
    (by decide) (by decide) (by decide) (by decide) (by decide) (by decide)

end Kizuna
